import Mathlib

/-!
# olivere/vfs: lexical confinement of `fileSystem.Resolve`

A shallow embedding of `src/fs.go` together with the Go standard library
functions it calls (`path.Clean`, `path.Join`, `filepath.Clean`,
`filepath.Join`, `filepath.ToSlash`, `filepath.FromSlash`, `strings.Join`),
in their Unix build (`filepath.Separator = '/'`, no volume names).

Go strings are byte sequences; they are embedded as `List Char`.  The only
bytes the algorithms inspect are `'/'` and `'.'`, both ASCII, so indexing by
character or by byte makes no difference to them.

The file has three parts: the embedding of the code, the definitions used to
state and prove its properties, and the theorems.
-/

/-! ## Go standard library: `strings` -/

namespace strings

/-- Go `strings.Join(elems, sep)`: the elements concatenated with `sep`
between consecutive ones. -/
def Join : List (List Char) → List Char → List Char
  | [], _ => []
  | [a], _ => a
  | a :: b :: rest, sep => a ++ sep ++ Join (b :: rest) sep

/-- Go `strings.Repeat(s, count)`. -/
def Repeat (s : List Char) : Nat → List Char
  | 0 => []
  | n + 1 => s ++ Repeat s n

end strings

/-! ## Go standard library: the `Clean` loop shared by `path` and `filepath` -/

/-- The mutable variables of `Clean`: the bytes written so far
(`out.string()`, so that `out.w = out.length`) and the index `dotdot`
below which a `..` must not backtrack. -/
structure cleanState where
  out : List Char
  dotdot : Nat
deriving DecidableEq

/-- The loop `for out.w > dotdot && out.index(out.w) != '/' { out.w-- }`,
started at `out.w = w`; returns the final `out.w`. -/
def backtrackLoop (out : List Char) (dotdot : Nat) : Nat → Nat
  | 0 => 0
  | w + 1 =>
    if dotdot < w + 1 ∧ out.getD (w + 1) '/' ≠ '/' then backtrackLoop out dotdot w
    else w + 1

/-- The `..` case of `Clean`:
`case out.w > dotdot: out.w--; for ... { out.w-- }`,
`case !rooted: if out.w > 0 { append('/') }; append('.'); append('.'); dotdot = out.w`. -/
def dotdotElem (rooted : Bool) (st : cleanState) : cleanState :=
  if st.dotdot < st.out.length then
    { st with out := st.out.take (backtrackLoop st.out st.dotdot (st.out.length - 1)) }
  else if rooted = false then
    let out1 := if 0 < st.out.length then st.out ++ ['/'] else st.out
    let out2 := out1 ++ ['.', '.']
    { out := out2, dotdot := out2.length }
  else st

/-- The loop `for ; r < n && path[r] != '/'; r++ { out.append(path[r]) }`:
returns the extended output and the unread rest of the path. -/
def copyElem : List Char → List Char → List Char × List Char
  | out, [] => (out, [])
  | out, c :: rest => if c = '/' then (out, c :: rest) else copyElem (out ++ [c]) rest

/-- The main loop `for r < n { switch { ... } }` of `Clean`.  The second
argument is the unread part `path[r:]`; the first bounds the number of
iterations (every iteration advances `r`, so `n` iterations suffice). -/
def cleanLoop (rooted : Bool) : Nat → List Char → cleanState → cleanState
  | 0, _, st => st
  | _ + 1, [], st => st
  | fuel + 1, c :: rest, st =>
    if c = '/' then
      -- empty path element
      cleanLoop rooted fuel rest st
    else if c = '.' ∧ (rest = [] ∨ rest.head? = some '/') then
      -- . element
      cleanLoop rooted fuel rest st
    else if c = '.' ∧ rest.head? = some '.' ∧
        (rest.tail = [] ∨ rest.tail.head? = some '/') then
      -- .. element: remove to last /
      cleanLoop rooted fuel rest.tail (dotdotElem rooted st)
    else
      -- real path element; add slash if needed, then copy element
      let out1 :=
        if (rooted = true ∧ st.out.length ≠ 1) ∨ (rooted = false ∧ st.out.length ≠ 0)
        then st.out ++ ['/'] else st.out
      let r := copyElem out1 (c :: rest)
      cleanLoop rooted fuel r.2 { st with out := r.1 }

/-- The body of `Clean` after the empty-string test, common to `path.Clean`
and (on Unix) `filepath.Clean`. -/
def cleanBody (p : List Char) : List Char :=
  let rooted : Bool := decide (p.head? = some '/')
  let n := p.length
  let st0 : cleanState := if rooted then ⟨['/'], 1⟩ else ⟨[], 0⟩
  let st := cleanLoop rooted n (if rooted then p.drop 1 else p) st0
  -- Turn empty string into "."
  if st.out.length = 0 then ['.'] else st.out

/-! ## Go standard library: `path` -/

namespace path

/-- Go `path.Clean`. -/
def Clean (p : List Char) : List Char :=
  if p = [] then ['.'] else cleanBody p

/-- Go `path.Join`:
`size := 0; for _, e := range elem { size += len(e) }`,
`if size == 0 { return "" }`, then the buffer loop
`for _, e := range elem { if len(buf) > 0 || e != "" {`
`if len(buf) > 0 { buf = append(buf, '/') }; buf = append(buf, e...) } }`
and `return Clean(string(buf))`. -/
def Join (elem : List (List Char)) : List Char :=
  let size := elem.foldl (fun size e => size + e.length) 0
  if size = 0 then []
  else
    let buf := elem.foldl (fun (buf : List Char) e =>
      if 0 < buf.length ∨ e ≠ [] then
        (if 0 < buf.length then buf ++ ['/'] else buf) ++ e
      else buf) []
    Clean buf

end path

/-! ## Go standard library: `path/filepath`, Unix build -/

namespace filepath

/-- Go `filepath.Separator` on Unix. -/
def Separator : Char := '/'

/-- Go `filepath.ToSlash`: `if Separator == '/' { return path }`, else every
separator is replaced by a slash. -/
def ToSlash (p : List Char) : List Char :=
  if Separator = '/' then p else p.map (fun c => if c = Separator then '/' else c)

/-- Go `filepath.FromSlash`: `if Separator == '/' { return path }`, else every
slash is replaced by the separator. -/
def FromSlash (p : List Char) : List Char :=
  if Separator = '/' then p else p.map (fun c => if c = '/' then Separator else c)

/-- Go `filepath.Clean` on Unix (`volumeNameLen` is 0 and `os.IsPathSeparator`
tests for `'/'`): `if path == "" { return originalPath + "." }`, then the
same loop as `path.Clean`, then `FromSlash`. -/
def Clean (p : List Char) : List Char :=
  if p = [] then p ++ ['.'] else FromSlash (cleanBody p)

/-- Go `filepath.Join` on Unix:
`for i, e := range elem { if e != "" { return Clean(strings.Join(elem[i:], string(Separator))) } }; return ""`. -/
def Join : List (List Char) → List Char
  | [] => []
  | e :: rest => if e ≠ [] then Clean (strings.Join (e :: rest) [Separator]) else Join rest

end filepath

/-! ## `src/fs.go` -/

/-- The `fileSystem` struct of `fs.go`: access to files below a root directory. -/
structure fileSystem where
  root : List Char
deriving DecidableEq

/-- `FileSystem(dir)` of `fs.go`: `return &fileSystem{root: dir}`. -/
def FileSystem (dir : List Char) : fileSystem := { root := dir }

/-- The `File` interface of `fs.go` as a Go interface value: the nil
interface, or a `*os.File`, which may itself be the nil pointer. -/
inductive File (Handle : Type) where
  | nil
  | ofOSFile (f : Option Handle)
deriving DecidableEq

/-- The host file API used by `fs.go` (`os.Open`, `os.OpenFile`, `os.Create`,
`os.Stat`, `os.Mkdir`, `os.MkdirAll`, `os.Remove`): arbitrary functions from a
path, and flags and mode where the call has them, to a value or an error.
`Handle` stands for an open `os.File`, `Info` for an `os.FileInfo`. -/
structure HostOS (Handle Info Err : Type) where
  Open : List Char → Except Err Handle
  OpenFile : List Char → Int → Nat → Except Err Handle
  Create : List Char → Except Err Handle
  Stat : List Char → Except Err Info
  Mkdir : List Char → Nat → Except Err Unit
  MkdirAll : List Char → Nat → Except Err Unit
  Remove : List Char → Except Err Unit

/-- A call made to the host file API, with the arguments it received. -/
inductive HostCall where
  | Open (name : List Char)
  | OpenFile (name : List Char) (flag : Int) (perm : Nat)
  | Create (name : List Char)
  | Stat (name : List Char)
  | Mkdir (name : List Char) (perm : Nat)
  | MkdirAll (name : List Char) (perm : Nat)
  | Remove (name : List Char)
deriving DecidableEq

/-- The pair `(value, err)` a host function returns in Go: the value and a nil
error on success, a nil value and the error on failure. -/
def osResult {α Err : Type} : Except Err α → Option α × Option Err
  | .ok v => (some v, none)
  | .error e => (none, some e)

/-- The `error` a host function returns in Go: nil on success. -/
def osError {Err : Type} : Except Err Unit → Option Err
  | .ok _ => none
  | .error e => some e

namespace fileSystem

/-- `Resolve` of `fs.go`:
`fname := path.Clean("/" + filepath.ToSlash(name))`,
`return filepath.Join(fs.root, filepath.FromSlash(fname))`. -/
def Resolve (fs : fileSystem) (name : List Char) : List Char :=
  let fname := path.Clean (['/'] ++ filepath.ToSlash name)
  filepath.Join [fs.root, filepath.FromSlash fname]

/-- `Join` of `fs.go`: `return fs.Resolve(path.Join(elem...))`. -/
def Join (fs : fileSystem) (elem : List (List Char)) : List Char :=
  fs.Resolve (path.Join elem)

variable {Handle Info Err : Type}

/-- `Mkdir` of `fs.go`: `return os.Mkdir(fs.Resolve(name), perm)`.  The first
component lists the host calls made. -/
def Mkdir (os : HostOS Handle Info Err) (fs : fileSystem) (name : List Char) (perm : Nat) :
    List HostCall × Option Err :=
  ([HostCall.Mkdir (fs.Resolve name) perm], osError (os.Mkdir (fs.Resolve name) perm))

/-- `MkdirAll` of `fs.go`: `return os.MkdirAll(fs.Resolve(name), perm)`. -/
def MkdirAll (os : HostOS Handle Info Err) (fs : fileSystem) (name : List Char) (perm : Nat) :
    List HostCall × Option Err :=
  ([HostCall.MkdirAll (fs.Resolve name) perm], osError (os.MkdirAll (fs.Resolve name) perm))

/-- `Open` of `fs.go`:
`f, err := os.Open(fs.Resolve(name)); if err != nil { return nil, err }; return f, nil`.
The `nil` returned on failure is the nil `File` interface; on success the
`*os.File` is converted to a `File`. -/
def Open (os : HostOS Handle Info Err) (fs : fileSystem) (name : List Char) :
    List HostCall × (File Handle × Option Err) :=
  let r := osResult (os.Open (fs.Resolve name))
  ([HostCall.Open (fs.Resolve name)],
    if r.2.isSome then (File.nil, r.2) else (File.ofOSFile r.1, none))

/-- `OpenFile` of `fs.go`: `return os.OpenFile(fs.Resolve(name), flag, perm)`.
Both results of `os.OpenFile` are returned as they are, the `*os.File` converted
to a `File`: on failure that is a `File` holding the nil pointer, not the nil
interface. -/
def OpenFile (os : HostOS Handle Info Err) (fs : fileSystem) (name : List Char) (flag : Int)
    (perm : Nat) : List HostCall × (File Handle × Option Err) :=
  let r := osResult (os.OpenFile (fs.Resolve name) flag perm)
  ([HostCall.OpenFile (fs.Resolve name) flag perm], (File.ofOSFile r.1, r.2))

/-- `Create` of `fs.go`:
`f, err := os.Create(fs.Resolve(name)); if err != nil { return nil, err }; return f, nil`. -/
def Create (os : HostOS Handle Info Err) (fs : fileSystem) (name : List Char) :
    List HostCall × (File Handle × Option Err) :=
  let r := osResult (os.Create (fs.Resolve name))
  ([HostCall.Create (fs.Resolve name)],
    if r.2.isSome then (File.nil, r.2) else (File.ofOSFile r.1, none))

/-- `Stat` of `fs.go`: `return os.Stat(fs.Resolve(name))`; an `os.FileInfo` is
already an interface value and is returned unchanged. -/
def Stat (os : HostOS Handle Info Err) (fs : fileSystem) (name : List Char) :
    List HostCall × (Option Info × Option Err) :=
  ([HostCall.Stat (fs.Resolve name)], osResult (os.Stat (fs.Resolve name)))

/-- `Remove` of `fs.go`: `return os.Remove(fs.Resolve(name))`. -/
def Remove (os : HostOS Handle Info Err) (fs : fileSystem) (name : List Char) :
    List HostCall × Option Err :=
  ([HostCall.Remove (fs.Resolve name)], osError (os.Remove (fs.Resolve name)))

end fileSystem

/-! ## Definitions used in the statements and proofs -/

/-- The path split at every `'/'` (Go `strings.Split(p, "/")`). -/
def splitSlash : List Char → List (List Char)
  | [] => [[]]
  | c :: rest =>
    if c = '/' then [] :: splitSlash rest
    else match splitSlash rest with
      | [] => [[c]]
      | x :: xs => (c :: x) :: xs

/-- The default case of the `Clean` switch applied to a whole element. -/
def realElem (rooted : Bool) (st : cleanState) (e : List Char) : cleanState :=
  { st with out :=
      (if (rooted = true ∧ st.out.length ≠ 1) ∨ (rooted = false ∧ st.out.length ≠ 0)
        then st.out ++ ['/'] else st.out) ++ e }

/-- What one iteration group of the `Clean` loop does with one path element. -/
def elemStep (rooted : Bool) (st : cleanState) (e : List Char) : cleanState :=
  if e = [] ∨ e = ['.'] then st
  else if e = ['.', '.'] then dotdotElem rooted st
  else realElem rooted st e

/-- The last statement of `Clean`: an empty output becomes `"."`. -/
def cleanFinish (st : cleanState) : List Char :=
  if st.out.length = 0 then ['.'] else st.out

/-- An ordinary path segment: non-empty, without a slash, and neither `.` nor `..`. -/
def Segment (c : List Char) : Prop :=
  c ≠ [] ∧ '/' ∉ c ∧ c ≠ ['.'] ∧ c ≠ ['.', '.']

instance : DecidablePred Segment := fun c => by
  unfold Segment
  infer_instance

/-- The effect of one path element on the stack of segments kept so far. -/
def stackStep (stack : List (List Char)) (e : List Char) : List (List Char) :=
  if e = [] ∨ e = ['.'] then stack
  else if e = ['.', '.'] then stack.dropLast
  else stack ++ [e]

/-- The stack of segments that survive in `Clean("/" + q)`. -/
def cleanStack (q : List Char) : List (List Char) :=
  (splitSlash q).foldl stackStep []

/-- The state of a rooted `Clean` whose kept segments are `stack`. -/
def rootedState (stack : List (List Char)) : cleanState :=
  ⟨'/' :: strings.Join stack ['/'], 1⟩

/-- The state of an unrooted `Clean` that has kept `k` leading `..` elements
followed by the segments `stack`. -/
def unrootedState (k : Nat) (stack : List (List Char)) : cleanState :=
  ⟨strings.Join (List.replicate k ['.', '.'] ++ stack) ['/'],
    (strings.Join (List.replicate k ['.', '.']) ['/']).length⟩

/-- Every segment preceded by a slash. -/
def slashCat : List (List Char) → List Char
  | [] => []
  | s :: rest => '/' :: s ++ slashCat rest

/-- The stack after the elements of `elems`, each split at its slashes, taken in order. -/
def stackOfElems (elems : List (List Char)) (stack : List (List Char)) : List (List Char) :=
  elems.foldl (fun st e => (splitSlash e).foldl stackStep st) stack

/-- An absolute path in cleaned form, in Go's sense: it starts with a slash and
`path.Clean` leaves it unchanged.  The root `"/"` is one. -/
def AbsClean (root : List Char) : Prop :=
  root.head? = some '/' ∧ path.Clean root = root

instance : DecidablePred AbsClean := fun root => by
  unfold AbsClean
  infer_instance

/-- An absolute path with no trailing separator and no `.`, `..` or empty
component: a slash followed by ordinary segments separated by single slashes. -/
def SegmentedAbs (root : List Char) : Prop :=
  root.head? = some '/' ∧ ∀ c ∈ splitSlash root.tail, Segment c

instance : DecidablePred SegmentedAbs := fun root => by
  unfold SegmentedAbs
  infer_instance

/-- A host for the witness of C9: `Stat` reports the length of the path, `Open`
fails on every path but `/tmp/vfs/a`. -/
def witnessHost : HostOS Nat Nat Nat where
  Open := fun p => if p = "/tmp/vfs/a".toList then Except.ok 7 else Except.error 2
  OpenFile := fun p _ _ => if p = "/tmp/vfs/a".toList then Except.ok 7 else Except.error 2
  Create := fun _ => Except.ok 8
  Stat := fun p => Except.ok p.length
  Mkdir := fun _ _ => Except.error 17
  MkdirAll := fun _ _ => Except.ok ()
  Remove := fun _ => Except.error 2

/-! ## The `Clean` loop as a fold over path elements -/

theorem splitSlash_ne_nil (p : List Char) : splitSlash p ≠ [] := by
  cases p with
  | nil => simp [splitSlash]
  | cons c rest =>
    simp only [splitSlash]
    split
    · simp
    · split <;> simp

theorem splitSlash_eq (p : List Char) :
    splitSlash p = p.takeWhile (fun c => decide (c ≠ '/')) ::
      (match p.dropWhile (fun c => decide (c ≠ '/')) with
        | [] => []
        | _ :: r => splitSlash r) := by
  induction p with
  | nil => simp [splitSlash]
  | cons c rest ih =>
    by_cases hc : c = '/'
    · subst hc
      simp [splitSlash]
    · simp only [splitSlash, if_neg hc]
      rw [ih]
      simp [List.takeWhile_cons, List.dropWhile_cons, hc]

theorem copyElem_eq (out p : List Char) :
    copyElem out p = (out ++ p.takeWhile (fun c => decide (c ≠ '/')),
      p.dropWhile (fun c => decide (c ≠ '/'))) := by
  induction p generalizing out with
  | nil => simp [copyElem]
  | cons c rest ih =>
    by_cases hc : c = '/'
    · subst hc
      simp [copyElem]
    · simp [copyElem, hc, ih, List.takeWhile_cons, List.dropWhile_cons]

theorem dropWhile_head_false (q : Char → Bool) (l : List Char) (d : Char) (r : List Char)
    (h : l.dropWhile q = d :: r) : q d = false := by
  induction l with
  | nil => simp at h
  | cons a l ih =>
    by_cases ha : q a = true
    · rw [List.dropWhile_cons_of_pos ha] at h
      exact ih h
    · rw [List.dropWhile_cons_of_neg ha] at h
      simp only [List.cons.injEq] at h
      rw [← h.1]
      simpa using ha

theorem elemStep_nil (rooted : Bool) (st : cleanState) : elemStep rooted st [] = st := by
  simp [elemStep]

theorem elemStep_dot (rooted : Bool) (st : cleanState) : elemStep rooted st ['.'] = st := by
  simp [elemStep]

theorem elemStep_dotdot (rooted : Bool) (st : cleanState) :
    elemStep rooted st ['.', '.'] = dotdotElem rooted st := by
  simp [elemStep]

theorem cleanLoop_nil (rooted : Bool) (fuel : Nat) (st : cleanState) :
    cleanLoop rooted fuel [] st = st := by
  cases fuel <;> simp [cleanLoop]

/-- With enough iterations the `Clean` loop is the left fold of `elemStep`
over the elements of the path. -/
theorem cleanLoop_eq_foldl (rooted : Bool) (fuel : Nat) (p : List Char) (st : cleanState)
    (h : p.length ≤ fuel) :
    cleanLoop rooted fuel p st = (splitSlash p).foldl (elemStep rooted) st := by
  induction fuel generalizing p st with
  | zero =>
    have : p = [] := List.eq_nil_of_length_eq_zero (Nat.le_zero.mp h)
    subst this
    simp [cleanLoop, splitSlash, elemStep_nil]
  | succ fuel ih =>
    cases p with
    | nil => simp [cleanLoop, splitSlash, elemStep_nil]
    | cons c rest =>
      have hlen : rest.length ≤ fuel := by simpa using h
      rw [cleanLoop]
      by_cases hc : c = '/'
      · subst hc
        simp only [if_true]
        rw [ih rest st hlen]
        simp [splitSlash, elemStep_nil]
      · rw [if_neg hc]
        by_cases hdot : c = '.' ∧ (rest = [] ∨ rest.head? = some '/')
        · rw [if_pos hdot]
          obtain ⟨hc1, hrest⟩ := hdot
          subst hc1
          rw [ih rest st hlen]
          cases rest with
          | nil => simp [splitSlash, elemStep_nil, elemStep_dot]
          | cons d r2 =>
            have hd : d = '/' := by simpa using hrest
            subst hd
            simp [splitSlash, elemStep_nil, elemStep_dot]
        · rw [if_neg hdot]
          by_cases hdd : c = '.' ∧ rest.head? = some '.' ∧
              (rest.tail = [] ∨ rest.tail.head? = some '/')
          · rw [if_pos hdd]
            obtain ⟨hc1, hr1, hr2⟩ := hdd
            subst hc1
            cases rest with
            | nil => simp at hr1
            | cons d r2 =>
              have hd : d = '.' := by simpa using hr1
              subst hd
              have hlen2 : r2.length ≤ fuel := by
                simp at hlen; omega
              simp only [List.tail_cons] at hr2 ⊢
              rw [ih r2 _ hlen2]
              cases r2 with
              | nil => simp [splitSlash, elemStep_nil, elemStep_dotdot]
              | cons e r3 =>
                have he : e = '/' := by simpa using hr2
                subst he
                simp [splitSlash, elemStep_nil, elemStep_dotdot]
          · rw [if_neg hdd]
            simp only [copyElem_eq]
            rw [splitSlash_eq (c :: rest)]
            have htw : (c :: rest).takeWhile (fun c => decide (c ≠ '/')) =
                c :: rest.takeWhile (fun c => decide (c ≠ '/')) := by
              simp [List.takeWhile_cons, hc]
            have hdw : (c :: rest).dropWhile (fun c => decide (c ≠ '/')) =
                rest.dropWhile (fun c => decide (c ≠ '/')) := by
              simp [List.dropWhile_cons, hc]
            have hstep : elemStep rooted st (c :: rest.takeWhile (fun c => decide (c ≠ '/'))) =
                realElem rooted st (c :: rest.takeWhile (fun c => decide (c ≠ '/'))) := by
              unfold elemStep
              have h1 : ¬ (c :: rest.takeWhile (fun c => decide (c ≠ '/')) = [] ∨
                  c :: rest.takeWhile (fun c => decide (c ≠ '/')) = ['.']) := by
                rintro (h1 | h1)
                · simp at h1
                · simp only [List.cons.injEq] at h1
                  apply hdot
                  refine ⟨h1.1, ?_⟩
                  cases rest with
                  | nil => simp
                  | cons d r2 =>
                    right
                    by_cases hd : d = '/'
                    · simp [hd]
                    · simp [List.takeWhile_cons, hd] at h1
              have h2 : ¬ (c :: rest.takeWhile (fun c => decide (c ≠ '/')) = ['.', '.']) := by
                intro h2
                simp only [List.cons.injEq] at h2
                apply hdd
                refine ⟨h2.1, ?_⟩
                cases rest with
                | nil => simp at h2
                | cons d r2 =>
                  by_cases hd : d = '/'
                  · simp [hd] at h2
                  · simp only [List.takeWhile_cons, hd, ne_eq, not_false_eq_true, decide_True,
                      if_true, List.cons.injEq] at h2
                    refine ⟨by simp [h2.2.1], ?_⟩
                    cases r2 with
                    | nil => simp
                    | cons e r3 =>
                      right
                      by_cases he : e = '/'
                      · simp [he]
                      · simp [List.takeWhile_cons, he] at h2
              rw [if_neg h1, if_neg h2]
            rw [htw, hdw, List.foldl_cons, hstep]
            have hdl : (rest.dropWhile (fun c => decide (c ≠ '/'))).length ≤ fuel :=
              le_trans (List.dropWhile_sublist _).length_le hlen
            rw [ih _ _ hdl]
            have hreal : realElem rooted st (c :: rest.takeWhile (fun c => decide (c ≠ '/'))) =
                { st with out := (if (rooted = true ∧ st.out.length ≠ 1) ∨
                    (rooted = false ∧ st.out.length ≠ 0) then st.out ++ ['/'] else st.out) ++
                    c :: rest.takeWhile (fun c => decide (c ≠ '/')) } := rfl
            rw [hreal]
            cases hdrop : rest.dropWhile (fun c => decide (c ≠ '/')) with
            | nil => simp [splitSlash, elemStep_nil]
            | cons d r2 =>
              have hd : d = '/' := by simpa using dropWhile_head_false _ rest d r2 hdrop
              subst hd
              simp [splitSlash, elemStep_nil]

/-- The iteration bound is never reached before the path is consumed: any
bound of at least the length of the unread path gives the same final state. -/
theorem cleanLoop_fuel_irrelevant (rooted : Bool) (fuel : Nat) (p : List Char)
    (st : cleanState) (h : p.length ≤ fuel) :
    cleanLoop rooted fuel p st = cleanLoop rooted p.length p st := by
  rw [cleanLoop_eq_foldl rooted fuel p st h, cleanLoop_eq_foldl rooted p.length p st (le_refl _)]

/-! ## `Clean` as a fold, and the two `Clean`s agree -/

theorem cleanBody_rooted (q : List Char) :
    cleanBody ('/' :: q) =
      cleanFinish ((splitSlash q).foldl (elemStep true) ⟨['/'], 1⟩) := by
  unfold cleanBody cleanFinish
  simp only [List.head?_cons, decide_True, if_true, List.drop_succ_cons, List.drop_zero,
    List.length_cons]
  rw [cleanLoop_eq_foldl true _ q _ (Nat.le_succ _)]

theorem cleanBody_unrooted (p : List Char) (h : p.head? ≠ some '/') :
    cleanBody p = cleanFinish ((splitSlash p).foldl (elemStep false) ⟨[], 0⟩) := by
  unfold cleanBody cleanFinish
  simp only [h, decide_False, if_false, Bool.false_eq_true]
  rw [cleanLoop_eq_foldl false _ p _ (le_refl _)]

theorem path_Clean_rooted (q : List Char) :
    path.Clean ('/' :: q) =
      cleanFinish ((splitSlash q).foldl (elemStep true) ⟨['/'], 1⟩) := by
  unfold path.Clean
  rw [if_neg (by simp), cleanBody_rooted]

theorem FromSlash_eq (p : List Char) : filepath.FromSlash p = p := by
  simp [filepath.FromSlash, filepath.Separator]

theorem ToSlash_eq (p : List Char) : filepath.ToSlash p = p := by
  simp [filepath.ToSlash, filepath.Separator]

theorem filepath_Clean_eq (p : List Char) : filepath.Clean p = path.Clean p := by
  unfold filepath.Clean path.Clean
  by_cases h : p = []
  · simp [h]
  · simp [h, FromSlash_eq]

/-! ## Backtracking over the last element -/

theorem getD_append_cons (pre : List Char) (a : Char) (t : List Char) (j : Nat) (d : Char) :
    (pre ++ a :: t).getD (pre.length + j) d = (a :: t).getD j d := by
  induction pre with
  | nil => simp
  | cons b pre ih =>
    have : (b :: pre).length + j = (pre.length + j) + 1 := by simp; omega
    rw [this]
    simpa using ih

theorem backtrackLoop_eq (pre : List Char) (a : Char) (t : List Char) (dd : Nat)
    (hdd : dd ≤ pre.length) (ht : ∀ x ∈ t, x ≠ '/') (ha : a = '/' ∨ pre.length = dd)
    (j : Nat) (hj : j ≤ t.length) :
    backtrackLoop (pre ++ a :: t) dd (pre.length + j) = pre.length := by
  induction j with
  | zero =>
    cases hp : pre.length with
    | zero => simp [backtrackLoop]
    | succ w =>
      simp only [Nat.add_zero, backtrackLoop]
      have hget : (pre ++ a :: t).getD (w + 1) '/' = a := by
        rw [← hp]
        simpa using getD_append_cons pre a t 0 '/'
      rw [hget]
      rcases ha with ha | ha
      · simp [ha]
      · have : ¬ dd < w + 1 := by omega
        simp [this]
  | succ j ih =>
    have hj1 : j < t.length := hj
    have hget : (pre ++ a :: t).getD (pre.length + j + 1) '/' = t[j] := by
      rw [Nat.add_assoc, getD_append_cons pre a t (j + 1) '/']
      simp [List.getD_eq_getElem?_getD, hj1]
    have hne : t[j] ≠ '/' := ht _ (List.getElem_mem _)
    have hlt : dd < pre.length + j + 1 := by omega
    show backtrackLoop (pre ++ a :: t) dd (pre.length + j + 1) = pre.length
    rw [backtrackLoop, hget, if_pos ⟨hlt, hne⟩]
    exact ih (Nat.le_of_lt hj1)

/-- Backtracking from an output `pre ++ a :: t`, where `t` has no slash and
either `a` is the slash or `pre` ends at `dotdot`, leaves exactly `pre`. -/
theorem backtrack_take (pre : List Char) (a : Char) (t : List Char) (dd : Nat)
    (hdd : dd ≤ pre.length) (ht : ∀ x ∈ t, x ≠ '/') (ha : a = '/' ∨ pre.length = dd) :
    (pre ++ a :: t).take (backtrackLoop (pre ++ a :: t) dd ((pre ++ a :: t).length - 1)) =
      pre := by
  have hlen : (pre ++ a :: t).length - 1 = pre.length + t.length := by
    simp
  rw [hlen, backtrackLoop_eq pre a t dd hdd ht ha t.length (le_refl _)]
  simp

theorem strings_Join_cons_cons (a b : List Char) (rest : List (List Char)) (sep : List Char) :
    strings.Join (a :: b :: rest) sep = a ++ sep ++ strings.Join (b :: rest) sep := rfl

theorem strings_Join_snoc (s : List (List Char)) (c sep : List Char) :
    strings.Join (s ++ [c]) sep = if s = [] then c else strings.Join s sep ++ sep ++ c := by
  induction s with
  | nil => simp [strings.Join]
  | cons a s ih =>
    cases s with
    | nil => simp [strings.Join]
    | cons b s =>
      rw [List.cons_append, List.cons_append, strings_Join_cons_cons, ← List.cons_append, ih]
      simp [strings_Join_cons_cons]

/-! ## The rooted case: a stack of ordinary segments -/

theorem strings_Join_eq_nil (stack : List (List Char)) (sep : List Char)
    (h : ∀ s ∈ stack, s ≠ []) : strings.Join stack sep = [] ↔ stack = [] := by
  cases stack with
  | nil => simp [strings.Join]
  | cons a rest =>
    have ha : a ≠ [] := h a (List.mem_cons_self _ _)
    cases rest with
    | nil => simp [strings.Join, ha]
    | cons b rest => simp [strings.Join, ha]

theorem splitSlash_slashfree (p : List Char) : ∀ e ∈ splitSlash p, '/' ∉ e := by
  induction p with
  | nil => simp [splitSlash]
  | cons c rest ih =>
    by_cases hc : c = '/'
    · subst hc
      simp only [splitSlash, if_true]
      intro e he
      rcases List.mem_cons.mp he with h | h
      · simp [h]
      · exact ih e h
    · simp only [splitSlash, if_neg hc]
      cases hs : splitSlash rest with
      | nil => exact absurd hs (splitSlash_ne_nil rest)
      | cons x xs =>
        rw [hs] at ih
        intro e he
        rcases List.mem_cons.mp he with h | h
        · subst h
          have hx := ih x (List.mem_cons_self _ _)
          simp only [List.mem_cons, not_or]
          exact ⟨fun h => hc h.symm, hx⟩
        · exact ih e (List.mem_cons_of_mem _ h)

theorem stackStep_segments (stack : List (List Char)) (e : List Char)
    (hs : ∀ s ∈ stack, Segment s) (he : '/' ∉ e) : ∀ s ∈ stackStep stack e, Segment s := by
  unfold stackStep
  by_cases h1 : e = [] ∨ e = ['.']
  · rw [if_pos h1]; exact hs
  · rw [if_neg h1]
    by_cases h2 : e = ['.', '.']
    · rw [if_pos h2]
      intro s hmem
      exact hs s (List.dropLast_subset _ hmem)
    · rw [if_neg h2]
      intro s hmem
      rcases List.mem_append.mp hmem with h | h
      · exact hs s h
      · have : s = e := by simpa using h
        subst this
        exact ⟨fun h => h1 (Or.inl h), he, fun h => h1 (Or.inr h), h2⟩

theorem foldl_stackStep_segments (comps : List (List Char)) (stack : List (List Char))
    (hs : ∀ s ∈ stack, Segment s) (hc : ∀ e ∈ comps, '/' ∉ e) :
    ∀ s ∈ comps.foldl stackStep stack, Segment s := by
  induction comps generalizing stack with
  | nil => simpa using hs
  | cons e comps ih =>
    rw [List.foldl_cons]
    exact ih _ (stackStep_segments stack e hs (hc e (List.mem_cons_self _ _)))
      (fun e he => hc e (List.mem_cons_of_mem _ he))

theorem cleanStack_segments (q : List Char) : ∀ s ∈ cleanStack q, Segment s :=
  foldl_stackStep_segments _ [] (by simp) (splitSlash_slashfree q)

theorem rooted_dotdot (stack : List (List Char)) (hs : ∀ s ∈ stack, Segment s) :
    dotdotElem true (rootedState stack) = rootedState stack.dropLast := by
  rcases List.eq_nil_or_concat stack with h | ⟨s, c, h⟩
  · subst h
    simp [dotdotElem, rootedState, strings.Join]
  · rw [List.concat_eq_append] at h
    subst h
    have hc : Segment c := hs c (by simp)
    obtain ⟨a, t, hat⟩ := List.exists_cons_of_ne_nil hc.1
    have ht : ∀ x ∈ t, x ≠ '/' := by
      intro x hx hx2
      apply hc.2.1
      rw [hat, ← hx2]
      exact List.mem_cons_of_mem _ hx
    rw [List.dropLast_concat]
    unfold dotdotElem rootedState
    simp only [strings_Join_snoc]
    by_cases hnil : s = []
    · subst hnil
      have hlt : 1 < ('/' :: c).length := by rw [hat]; simp
      simp only [if_true, hlt, strings.Join]
      have := backtrack_take ['/'] a t 1 (by simp) ht (Or.inr rfl)
      rw [hat]
      simpa using this
    · simp only [if_neg hnil]
      have hlt : 1 < ('/' :: (strings.Join s ['/'] ++ ['/'] ++ c)).length := by
        simp
      simp only [if_pos hlt]
      have hc2 : ∀ x ∈ c, x ≠ '/' := by
        intro x hx hx2
        apply hc.2.1
        rw [← hx2]; exact hx
      have := backtrack_take ('/' :: strings.Join s ['/']) '/' c 1 (by simp) hc2 (Or.inl rfl)
      simpa using this

theorem rooted_elemStep (stack : List (List Char)) (e : List Char)
    (hs : ∀ s ∈ stack, Segment s) :
    elemStep true (rootedState stack) e = rootedState (stackStep stack e) := by
  unfold elemStep stackStep
  by_cases h1 : e = [] ∨ e = ['.']
  · rw [if_pos h1, if_pos h1]
  · rw [if_neg h1, if_neg h1]
    by_cases h2 : e = ['.', '.']
    · rw [if_pos h2, if_pos h2]
      exact rooted_dotdot stack hs
    · rw [if_neg h2, if_neg h2]
      unfold realElem rootedState
      simp only [strings_Join_snoc]
      by_cases hnil : stack = []
      · subst hnil
        simp [strings.Join]
      · have hne : strings.Join stack ['/'] ≠ [] := by
          rw [Ne, strings_Join_eq_nil stack _ (fun s h => (hs s h).1)]
          exact hnil
        have hlen : (strings.Join stack ['/']).length ≠ 0 := by
          simpa using hne
        simp [hnil, hlen]

theorem rooted_foldl (comps : List (List Char)) (stack : List (List Char))
    (hs : ∀ s ∈ stack, Segment s) (hc : ∀ e ∈ comps, '/' ∉ e) :
    comps.foldl (elemStep true) (rootedState stack) =
      rootedState (comps.foldl stackStep stack) := by
  induction comps generalizing stack with
  | nil => rfl
  | cons e comps ih =>
    rw [List.foldl_cons, List.foldl_cons, rooted_elemStep stack e hs]
    exact ih _ (stackStep_segments stack e hs (hc e (List.mem_cons_self _ _)))
      (fun e he => hc e (List.mem_cons_of_mem _ he))

/-- `Clean("/" + q)` is a slash followed by the surviving segments joined by slashes. -/
theorem path_Clean_slash (q : List Char) :
    path.Clean ('/' :: q) = '/' :: strings.Join (cleanStack q) ['/'] := by
  rw [path_Clean_rooted]
  have h := rooted_foldl (splitSlash q) [] (by simp) (splitSlash_slashfree q)
  have h0 : rootedState [] = ⟨['/'], 1⟩ := by simp [rootedState, strings.Join]
  rw [h0] at h
  rw [h]
  simp [cleanFinish, rootedState, cleanStack]

/-! ## Splitting and joining -/

theorem splitSlash_cons_slash (p : List Char) : splitSlash ('/' :: p) = [] :: splitSlash p := by
  simp [splitSlash]

theorem splitSlash_cons_ne (c : Char) (p : List Char) (hc : c ≠ '/') :
    splitSlash (c :: p) =
      match splitSlash p with
      | [] => [[c]]
      | x :: xs => (c :: x) :: xs := by
  simp [splitSlash, hc]

theorem splitSlash_append_slash (a b : List Char) :
    splitSlash (a ++ '/' :: b) = splitSlash a ++ splitSlash b := by
  induction a with
  | nil => simp [splitSlash]
  | cons c a ih =>
    by_cases hc : c = '/'
    · subst hc
      simp [splitSlash, ih]
    · rw [List.cons_append, splitSlash_cons_ne _ _ hc, ih, splitSlash_cons_ne _ _ hc]
      cases hs : splitSlash a with
      | nil => exact absurd hs (splitSlash_ne_nil a)
      | cons x xs => simp

theorem splitSlash_of_slashfree (c : List Char) (h : '/' ∉ c) : splitSlash c = [c] := by
  induction c with
  | nil => simp [splitSlash]
  | cons a c ih =>
    have ha : a ≠ '/' := fun ha => h (by simp [ha])
    have hc : '/' ∉ c := fun hc => h (List.mem_cons_of_mem _ hc)
    simp [splitSlash, ha, ih hc]

/-- Splitting a slash-joined non-empty list of slash-free elements gives the list back. -/
theorem splitSlash_Join (comps : List (List Char)) (hne : comps ≠ [])
    (h : ∀ c ∈ comps, '/' ∉ c) : splitSlash (strings.Join comps ['/']) = comps := by
  induction comps with
  | nil => exact absurd rfl hne
  | cons a comps ih =>
    have ha : '/' ∉ a := h a (List.mem_cons_self _ _)
    cases comps with
    | nil => simpa [strings.Join] using splitSlash_of_slashfree a ha
    | cons b comps =>
      rw [strings_Join_cons_cons]
      have := ih (by simp) (fun c hc => h c (List.mem_cons_of_mem _ hc))
      rw [List.append_assoc, List.singleton_append, splitSlash_append_slash, this,
        splitSlash_of_slashfree a ha]
      rfl

/-- Joining the elements of a split path gives the path back. -/
theorem Join_splitSlash (p : List Char) : strings.Join (splitSlash p) ['/'] = p := by
  induction p with
  | nil => simp [splitSlash, strings.Join]
  | cons c p ih =>
    by_cases hc : c = '/'
    · subst hc
      rw [splitSlash_cons_slash]
      cases hs : splitSlash p with
      | nil => exact absurd hs (splitSlash_ne_nil p)
      | cons x xs =>
        rw [strings_Join_cons_cons, ← hs, ih]
        rfl
    · simp only [splitSlash, if_neg hc]
      cases hs : splitSlash p with
      | nil => exact absurd hs (splitSlash_ne_nil p)
      | cons x xs =>
        rw [hs] at ih
        cases xs with
        | nil =>
          simp only [strings.Join] at ih ⊢
          rw [ih]
        | cons y ys =>
          rw [strings_Join_cons_cons] at ih ⊢
          rw [← ih]
          simp

/-! ## Algebra of the segment stack -/

theorem foldl_stackStep_push (segs stack : List (List Char)) (h : ∀ s ∈ segs, Segment s) :
    segs.foldl stackStep stack = stack ++ segs := by
  induction segs generalizing stack with
  | nil => simp
  | cons e segs ih =>
    have he : Segment e := h e (List.mem_cons_self _ _)
    rw [List.foldl_cons, ih _ (fun s hs => h s (List.mem_cons_of_mem _ hs))]
    have : stackStep stack e = stack ++ [e] := by
      unfold stackStep
      rw [if_neg (by rintro (h1 | h1); exact he.1 h1; exact he.2.2.1 h1), if_neg he.2.2.2]
    rw [this]
    simp

theorem cleanStack_nil : cleanStack [] = [] := by
  simp [cleanStack, splitSlash, stackStep]

theorem cleanStack_cons_slash (p : List Char) : cleanStack ('/' :: p) = cleanStack p := by
  simp [cleanStack, splitSlash, stackStep]

theorem cleanStack_append_slash (a b : List Char) :
    cleanStack (a ++ '/' :: b) = (splitSlash b).foldl stackStep (cleanStack a) := by
  simp [cleanStack, splitSlash_append_slash, List.foldl_append]

/-- The stack of a slash-joined list of ordinary segments is that list. -/
theorem cleanStack_Join (segs : List (List Char)) (h : ∀ s ∈ segs, Segment s) :
    cleanStack (strings.Join segs ['/']) = segs := by
  by_cases hne : segs = []
  · subst hne
    simp [strings.Join, cleanStack_nil]
  · unfold cleanStack
    rw [splitSlash_Join segs hne (fun c hc => (h c hc).2.1), foldl_stackStep_push segs [] h]
    simp

/-! ## `Resolve` in terms of the segment stack -/

theorem filepath_Join_pair (root f : List Char) (hf : f ≠ []) :
    filepath.Join [root, f] =
      if root = [] then path.Clean f else path.Clean (root ++ '/' :: f) := by
  by_cases hr : root = []
  · subst hr
    simp [filepath.Join, hf, strings.Join, filepath_Clean_eq]
  · simp [filepath.Join, hr, strings.Join, filepath_Clean_eq, filepath.Separator]

theorem Resolve_eq (fs : fileSystem) (name : List Char) :
    fs.Resolve name =
      if fs.root = [] then path.Clean ('/' :: strings.Join (cleanStack name) ['/'])
      else path.Clean (fs.root ++ '/' :: '/' :: strings.Join (cleanStack name) ['/']) := by
  unfold fileSystem.Resolve
  simp only [ToSlash_eq, FromSlash_eq, List.singleton_append]
  rw [path_Clean_slash name, filepath_Join_pair _ _ (by simp)]

/-- `Resolve` depends on the name only through its segment stack. -/
theorem Resolve_congr (fs : fileSystem) (a b : List Char) (h : cleanStack a = cleanStack b) :
    fs.Resolve a = fs.Resolve b := by
  rw [Resolve_eq, Resolve_eq, h]

/-! ## Cleaning a cleaned path extended by ordinary segments -/

theorem slashCat_eq_Join (segs : List (List Char)) (hne : segs ≠ []) :
    slashCat segs = '/' :: strings.Join segs ['/'] := by
  induction segs with
  | nil => exact absurd rfl hne
  | cons a segs ih =>
    cases segs with
    | nil => simp [slashCat, strings.Join]
    | cons b segs =>
      rw [slashCat, ih (by simp), strings_Join_cons_cons]
      simp

/-- The general form of the fold: `Clean` of a non-empty path. -/
theorem path_Clean_fold (p : List Char) (hp : p ≠ []) :
    path.Clean p =
      cleanFinish ((splitSlash (if p.head? = some '/' then p.drop 1 else p)).foldl
        (elemStep (decide (p.head? = some '/')))
        (if p.head? = some '/' then ⟨['/'], 1⟩ else ⟨[], 0⟩)) := by
  unfold path.Clean
  rw [if_neg hp]
  by_cases h : p.head? = some '/'
  · obtain ⟨c, q, rfl⟩ := List.exists_cons_of_ne_nil hp
    have hc : c = '/' := by simpa using h
    subst hc
    rw [cleanBody_rooted]
    simp
  · rw [cleanBody_unrooted p h]
    simp [h]

theorem realElem_segments (rooted : Bool) (segs : List (List Char)) (st : cleanState)
    (hsep : (rooted = true → 2 ≤ st.out.length) ∧ (rooted = false → 1 ≤ st.out.length))
    (h : ∀ s ∈ segs, Segment s) :
    segs.foldl (elemStep rooted) st = ⟨st.out ++ slashCat segs, st.dotdot⟩ := by
  induction segs generalizing st with
  | nil => simp [slashCat]
  | cons e segs ih =>
    have he : Segment e := h e (List.mem_cons_self _ _)
    have hstep : elemStep rooted st e = ⟨st.out ++ '/' :: e, st.dotdot⟩ := by
      unfold elemStep
      rw [if_neg (by rintro (h1 | h1); exact he.1 h1; exact he.2.2.1 h1), if_neg he.2.2.2]
      unfold realElem
      have hcond : (rooted = true ∧ st.out.length ≠ 1) ∨ (rooted = false ∧ st.out.length ≠ 0) := by
        cases rooted with
        | true => left; exact ⟨rfl, by have := hsep.1 rfl; omega⟩
        | false => right; exact ⟨rfl, by have := hsep.2 rfl; omega⟩
      rw [if_pos hcond]
      simp
    rw [List.foldl_cons, hstep, ih _ _ (fun s hs => h s (List.mem_cons_of_mem _ hs))]
    · simp [slashCat]
    · constructor
      · intro hr
        have := hsep.1 hr
        simp only [List.length_append]
        omega
      · intro hr
        simp only [List.length_append, List.length_cons]
        omega

/-- A path that `Clean` leaves unchanged, other than `"/"` and `"."`, followed by
a slash and a cleaned rooted path, cleans to itself followed by the segments of
that path. -/
theorem path_Clean_append_segments (r : List Char) (hr : path.Clean r = r)
    (h1 : r ≠ ['/']) (h2 : r ≠ ['.']) (segs : List (List Char)) (hs : ∀ s ∈ segs, Segment s) :
    path.Clean (r ++ '/' :: '/' :: strings.Join segs ['/']) = r ++ slashCat segs := by
  have hne : r ≠ [] := by
    intro h
    subst h
    simp [path.Clean] at hr
  have hne2 : r ++ '/' :: '/' :: strings.Join segs ['/'] ≠ [] := by simp
  have hhead : (r ++ '/' :: '/' :: strings.Join segs ['/']).head? = r.head? := by
    obtain ⟨c, q, rfl⟩ := List.exists_cons_of_ne_nil hne
    simp
  have hdrop : (r ++ '/' :: '/' :: strings.Join segs ['/']).drop 1 =
      r.drop 1 ++ '/' :: '/' :: strings.Join segs ['/'] := by
    obtain ⟨c, q, rfl⟩ := List.exists_cons_of_ne_nil hne
    simp
  rw [path_Clean_fold _ hne] at hr
  rw [path_Clean_fold _ hne2, hhead, hdrop]
  have hsplit : splitSlash (if r.head? = some '/' then
        r.drop 1 ++ '/' :: '/' :: strings.Join segs ['/']
      else r ++ '/' :: '/' :: strings.Join segs ['/']) =
      splitSlash (if r.head? = some '/' then r.drop 1 else r) ++
        splitSlash ('/' :: strings.Join segs ['/']) := by
    split <;> exact splitSlash_append_slash _ _
  rw [hsplit, List.foldl_append]
  generalize hst : (splitSlash (if r.head? = some '/' then r.drop 1 else r)).foldl
    (elemStep (decide (r.head? = some '/')))
    (if r.head? = some '/' then ⟨['/'], 1⟩ else ⟨[], 0⟩) = st at hr ⊢
  have hout : st.out = r := by
    unfold cleanFinish at hr
    by_cases h0 : st.out.length = 0
    · rw [if_pos h0] at hr
      exact absurd hr.symm h2
    · rw [if_neg h0] at hr
      exact hr
  have hsep : (decide (r.head? = some '/') = true → 2 ≤ st.out.length) ∧
      (decide (r.head? = some '/') = false → 1 ≤ st.out.length) := by
    rw [hout]
    obtain ⟨c, q, rfl⟩ := List.exists_cons_of_ne_nil hne
    constructor
    · intro hrooted
      have hc : c = '/' := by simpa using hrooted
      subst hc
      cases q with
      | nil => exact absurd rfl h1
      | cons d q => simp
    · intro _
      simp
  rw [splitSlash_cons_slash, List.foldl_cons, elemStep_nil]
  by_cases hsegs : segs = []
  · subst hsegs
    simp only [strings.Join, splitSlash, List.foldl_cons, List.foldl_nil, elemStep_nil, slashCat,
      List.append_nil]
    unfold cleanFinish
    rw [hout, if_neg (by simpa using hne)]
  · rw [splitSlash_Join segs hsegs (fun c hc => (hs c hc).2.1),
      realElem_segments _ segs st hsep hs]
    unfold cleanFinish
    simp only [hout]
    rw [if_neg (by simp [hne])]

/-! ## Roots in cleaned form -/

theorem slashCat_eq_nil (segs : List (List Char)) : slashCat segs = [] ↔ segs = [] := by
  cases segs <;> simp [slashCat]

theorem SegmentedAbs_eq (root : List Char) (h : SegmentedAbs root) :
    root = '/' :: strings.Join (splitSlash root.tail) ['/'] := by
  obtain ⟨c, q, rfl⟩ := List.exists_cons_of_ne_nil
    (fun hn : root = [] => by rw [hn] at h; simp [SegmentedAbs] at h)
  have hc : c = '/' := by simpa using h.1
  subst hc
  simp [Join_splitSlash]

theorem SegmentedAbs_clean (root : List Char) (h : SegmentedAbs root) :
    path.Clean root = root ∧ root ≠ ['/'] ∧ root ≠ ['.'] := by
  obtain ⟨c, q, rfl⟩ := List.exists_cons_of_ne_nil
    (fun hn : root = [] => by rw [hn] at h; simp [SegmentedAbs] at h)
  have hc : c = '/' := by simpa using h.1
  subst hc
  have hseg : ∀ s ∈ splitSlash q, Segment s := h.2
  refine ⟨?_, ?_, by simp⟩
  · rw [path_Clean_slash]
    have : cleanStack q = splitSlash q := by
      unfold cleanStack
      rw [foldl_stackStep_push _ _ hseg]
      simp
    rw [this, Join_splitSlash]
  · intro hq
    have hq2 : q = [] := by simpa using hq
    subst hq2
    have := hseg [] (by simp [splitSlash])
    exact this.1 rfl

/-- The cleaned absolute paths are `"/"` and the segmented ones. -/
theorem AbsClean_iff (root : List Char) : AbsClean root ↔ (SegmentedAbs root ∨ root = ['/']) := by
  constructor
  · rintro ⟨hhead, hclean⟩
    obtain ⟨c, q, rfl⟩ := List.exists_cons_of_ne_nil
      (fun hn : root = [] => by rw [hn] at hhead; simp at hhead)
    have hc : c = '/' := by simpa using hhead
    subst hc
    rw [path_Clean_slash] at hclean
    have hq : strings.Join (cleanStack q) ['/'] = q := by simpa using hclean
    by_cases hs : cleanStack q = []
    · right
      rw [hs] at hq
      simp [strings.Join] at hq
      simp [← hq]
    · left
      refine ⟨rfl, ?_⟩
      show ∀ c ∈ splitSlash q, Segment c
      rw [← hq, splitSlash_Join _ hs (fun c hc => (cleanStack_segments q c hc).2.1)]
      exact cleanStack_segments q
  · rintro (h | h)
    · exact ⟨h.1, (SegmentedAbs_clean root h).1⟩
    · subst h
      decide

/-- `Resolve` below a root that `Clean` leaves unchanged (other than `"/"` and
`"."`): the root followed by the surviving segments of the name. -/
theorem Resolve_cleaned (root name : List Char) (hr : path.Clean root = root)
    (h1 : root ≠ ['/']) (h2 : root ≠ ['.']) :
    (FileSystem root).Resolve name = root ++ slashCat (cleanStack name) := by
  have hne : root ≠ [] := by
    intro h
    subst h
    simp [path.Clean] at hr
  rw [Resolve_eq]
  simp only [FileSystem, if_neg hne]
  exact path_Clean_append_segments root hr h1 h2 _ (cleanStack_segments name)

/-- `Resolve` below the root `"/"` is the cleaned forced-absolute name itself. -/
theorem Resolve_slash (name : List Char) :
    (FileSystem ['/']).Resolve name = path.Clean ('/' :: name) := by
  rw [Resolve_eq]
  simp only [FileSystem, List.singleton_append]
  rw [if_neg (by simp), path_Clean_slash, path_Clean_slash, cleanStack_cons_slash,
    cleanStack_cons_slash, cleanStack_Join _ (cleanStack_segments name)]

theorem path_Clean_slash_cat (name : List Char) :
    path.Clean ('/' :: name) =
      if cleanStack name = [] then ['/'] else slashCat (cleanStack name) := by
  rw [path_Clean_slash]
  by_cases h : cleanStack name = []
  · simp [h, strings.Join]
  · rw [if_neg h, slashCat_eq_Join _ h]

/-! ## Names with the same segment stack -/

theorem foldl_stackStep_replicate_nil (k : Nat) (stack : List (List Char)) :
    (List.replicate k ([] : List Char)).foldl stackStep stack = stack := by
  induction k with
  | zero => rfl
  | succ k ih => simp [List.replicate_succ, stackStep, ih]

theorem splitSlash_replicate_slash (k : Nat) (t : List Char) :
    splitSlash (List.replicate k '/' ++ t) = List.replicate k [] ++ splitSlash t := by
  induction k with
  | zero => rfl
  | succ k ih => simp [List.replicate_succ, splitSlash_cons_slash, ih]

theorem cleanStack_leading_slashes (k : Nat) (t : List Char) :
    cleanStack (List.replicate k '/' ++ t) = cleanStack t := by
  unfold cleanStack
  rw [splitSlash_replicate_slash, List.foldl_append, foldl_stackStep_replicate_nil]

theorem cleanStack_inner_slashes (s t : List Char) (k : Nat) :
    cleanStack (s ++ List.replicate (k + 1) '/' ++ t) = cleanStack (s ++ '/' :: t) := by
  rw [List.replicate_succ, List.append_assoc, List.cons_append, cleanStack_append_slash,
    cleanStack_append_slash, splitSlash_replicate_slash, List.foldl_append,
    foldl_stackStep_replicate_nil]

theorem cleanStack_dotdots (n : Nat) (p : List Char) :
    cleanStack (strings.Repeat ['.', '.', '/'] n ++ p) = cleanStack p := by
  induction n with
  | zero => rfl
  | succ n ih =>
    have : strings.Repeat ['.', '.', '/'] (n + 1) ++ p =
        ['.', '.'] ++ '/' :: (strings.Repeat ['.', '.', '/'] n ++ p) := by
      simp [strings.Repeat]
    rw [this, cleanStack_append_slash]
    have h0 : cleanStack ['.', '.'] = [] := by decide
    rw [h0]
    exact ih

theorem cleanStack_trailing_slash (name : List Char) :
    cleanStack (name ++ ['/']) = cleanStack name := by
  rw [cleanStack_append_slash]
  simp [splitSlash, stackStep]

theorem cleanStack_trailing_dot (name : List Char) :
    cleanStack (name ++ ['/', '.']) = cleanStack name := by
  rw [List.append_cons name '/' ['.'], List.append_assoc, List.singleton_append,
    cleanStack_append_slash]
  simp [splitSlash, stackStep]

/-! ## The unrooted case: leading `..` elements followed by a stack of segments -/

theorem strings_Join_length_append_le (A B : List (List Char)) (sep : List Char) :
    (strings.Join A sep).length ≤ (strings.Join (A ++ B) sep).length := by
  induction A with
  | nil => simp [strings.Join]
  | cons a A ih =>
    cases A with
    | nil =>
      cases B with
      | nil => simp
      | cons b B => simp [strings.Join]
    | cons b A =>
      rw [List.cons_append, List.cons_append, strings_Join_cons_cons, strings_Join_cons_cons]
      rw [List.cons_append] at ih
      simp only [List.length_append]
      omega

theorem dots_append_nonempty (k : Nat) (stack : List (List Char))
    (hs : ∀ s ∈ stack, Segment s) :
    ∀ s ∈ List.replicate k ['.', '.'] ++ stack, s ≠ [] := by
  intro s hmem
  rcases List.mem_append.mp hmem with h | h
  · rw [List.eq_of_mem_replicate h]
    simp
  · exact (hs s h).1

theorem unrooted_dotdot_nil (k : Nat) :
    dotdotElem false (unrootedState k []) = unrootedState (k + 1) [] := by
  unfold dotdotElem unrootedState
  simp only [List.append_nil, lt_irrefl, if_false, if_true]
  have hsnoc : List.replicate (k + 1) ['.', '.'] = List.replicate k ['.', '.'] ++ [['.', '.']] :=
    List.replicate_succ' _ _
  rw [hsnoc, strings_Join_snoc]
  by_cases hk : k = 0
  · subst hk
    simp [strings.Join]
  · have hne : List.replicate k ['.', '.'] ≠ [] := by
      cases k with
      | zero => exact absurd rfl hk
      | succ k => simp [List.replicate_succ]
    have hJ : strings.Join (List.replicate k ['.', '.']) ['/'] ≠ [] := by
      rw [Ne, strings_Join_eq_nil _ _ (fun s h => by rw [List.eq_of_mem_replicate h]; simp)]
      exact hne
    have hlen : 0 < (strings.Join (List.replicate k ['.', '.']) ['/']).length :=
      List.length_pos.mpr hJ
    simp [hne, hlen]

theorem unrooted_dotdot_snoc (k : Nat) (T : List (List Char)) (c : List Char)
    (hc : Segment c) :
    dotdotElem false (unrootedState k (T ++ [c])) = unrootedState k T := by
  obtain ⟨a, t, hat⟩ := List.exists_cons_of_ne_nil hc.1
  have hc2 : ∀ x ∈ c, x ≠ '/' := by
    intro x hx hx2
    apply hc.2.1
    rw [← hx2]; exact hx
  have ht : ∀ x ∈ t, x ≠ '/' := fun x hx => hc2 x (by rw [hat]; exact List.mem_cons_of_mem _ hx)
  unfold dotdotElem unrootedState
  simp only
  rw [← List.append_assoc, strings_Join_snoc]
  have hle := strings_Join_length_append_le (List.replicate k ['.', '.']) T ['/']
  by_cases hnil : List.replicate k ['.', '.'] ++ T = []
  · have hk : List.replicate k ['.', '.'] = [] := (List.append_eq_nil.mp hnil).1
    rw [if_pos hnil, hnil, hk]
    simp only [strings.Join, List.length_nil]
    have hlt : 0 < c.length := List.length_pos.mpr hc.1
    rw [if_pos hlt]
    have := backtrack_take [] a t 0 (by simp) ht (Or.inr rfl)
    rw [hat]
    simpa using this
  · rw [if_neg hnil]
    have hlt : (strings.Join (List.replicate k ['.', '.']) ['/']).length <
        (strings.Join (List.replicate k ['.', '.'] ++ T) ['/'] ++ ['/'] ++ c).length := by
      simp only [List.length_append, List.length_singleton]
      omega
    rw [if_pos hlt]
    have := backtrack_take (strings.Join (List.replicate k ['.', '.'] ++ T) ['/']) '/' c
      (strings.Join (List.replicate k ['.', '.']) ['/']).length hle hc2 (Or.inl rfl)
    simp only [List.append_assoc, List.singleton_append]
    rw [this]

theorem unrooted_elemStep (k : Nat) (stack : List (List Char)) (e : List Char)
    (hs : ∀ s ∈ stack, Segment s) :
    ∃ k2, elemStep false (unrootedState k stack) e = unrootedState k2 (stackStep stack e) := by
  unfold elemStep stackStep
  by_cases h1 : e = [] ∨ e = ['.']
  · rw [if_pos h1, if_pos h1]
    exact ⟨k, rfl⟩
  · rw [if_neg h1, if_neg h1]
    by_cases h2 : e = ['.', '.']
    · rw [if_pos h2, if_pos h2]
      rcases List.eq_nil_or_concat stack with h | ⟨T, c, h⟩
      · subst h
        exact ⟨k + 1, unrooted_dotdot_nil k⟩
      · rw [List.concat_eq_append] at h
        subst h
        rw [List.dropLast_concat]
        exact ⟨k, unrooted_dotdot_snoc k T c (hs c (by simp))⟩
    · rw [if_neg h2, if_neg h2]
      refine ⟨k, ?_⟩
      unfold realElem unrootedState
      simp only
      rw [← List.append_assoc, strings_Join_snoc]
      by_cases hnil : List.replicate k ['.', '.'] ++ stack = []
      · rw [hnil]
        simp [strings.Join]
      · have hJ : strings.Join (List.replicate k ['.', '.'] ++ stack) ['/'] ≠ [] := by
          rw [Ne, strings_Join_eq_nil _ _ (dots_append_nonempty k stack hs)]
          exact hnil
        have hlen : (strings.Join (List.replicate k ['.', '.'] ++ stack) ['/']).length ≠ 0 := by
          simpa using hJ
        simp [hnil, hlen]

theorem unrooted_foldl (comps : List (List Char)) (k : Nat) (stack : List (List Char))
    (hs : ∀ s ∈ stack, Segment s) (hc : ∀ e ∈ comps, '/' ∉ e) :
    ∃ k2, comps.foldl (elemStep false) (unrootedState k stack) =
      unrootedState k2 (comps.foldl stackStep stack) := by
  induction comps generalizing k stack with
  | nil => exact ⟨k, rfl⟩
  | cons e comps ih =>
    obtain ⟨k1, h1⟩ := unrooted_elemStep k stack e hs
    rw [List.foldl_cons, List.foldl_cons, h1]
    exact ih k1 _ (stackStep_segments stack e hs (hc e (List.mem_cons_self _ _)))
      (fun e he => hc e (List.mem_cons_of_mem _ he))

theorem foldl_stackStep_dots (k : Nat) :
    (List.replicate k ['.', '.']).foldl stackStep [] = [] := by
  induction k with
  | zero => rfl
  | succ k ih => simp [List.replicate_succ, stackStep, ih]

theorem cleanStack_cleanFinish_unrooted (k : Nat) (stack : List (List Char))
    (hs : ∀ s ∈ stack, Segment s) :
    cleanStack (cleanFinish (unrootedState k stack)) = stack := by
  unfold cleanFinish unrootedState
  simp only
  by_cases hnil : List.replicate k ['.', '.'] ++ stack = []
  · have hst : stack = [] := (List.append_eq_nil.mp hnil).2
    rw [hnil, hst]
    decide
  · have hJ : strings.Join (List.replicate k ['.', '.'] ++ stack) ['/'] ≠ [] := by
      rw [Ne, strings_Join_eq_nil _ _ (dots_append_nonempty k stack hs)]
      exact hnil
    have hlen : (strings.Join (List.replicate k ['.', '.'] ++ stack) ['/']).length ≠ 0 := by
      simpa using hJ
    rw [if_neg hlen]
    unfold cleanStack
    have hfree : ∀ c ∈ List.replicate k ['.', '.'] ++ stack, '/' ∉ c := by
      intro c hmem
      rcases List.mem_append.mp hmem with h | h
      · rw [List.eq_of_mem_replicate h]
        decide
      · exact (hs c h).2.1
    rw [splitSlash_Join _ hnil hfree, List.foldl_append, foldl_stackStep_dots,
      foldl_stackStep_push _ _ hs]
    simp

/-- Cleaning a path does not change its segment stack: `Clean("/" + Clean(p))`
and `Clean("/" + p)` keep the same segments. -/
theorem cleanStack_Clean (p : List Char) : cleanStack (path.Clean p) = cleanStack p := by
  by_cases hp : p = []
  · subst hp
    decide
  · by_cases hroot : p.head? = some '/'
    · obtain ⟨c, q, rfl⟩ := List.exists_cons_of_ne_nil hp
      have hc : c = '/' := by simpa using hroot
      subst hc
      rw [path_Clean_slash, cleanStack_cons_slash, cleanStack_cons_slash,
        cleanStack_Join _ (cleanStack_segments q)]
    · unfold path.Clean
      rw [if_neg hp, cleanBody_unrooted p hroot]
      have h0 : (⟨[], 0⟩ : cleanState) = unrootedState 0 [] := by
        simp [unrootedState, strings.Join]
      rw [h0]
      obtain ⟨k, hk⟩ := unrooted_foldl (splitSlash p) 0 [] (by simp) (splitSlash_slashfree p)
      rw [hk]
      exact cleanStack_cleanFinish_unrooted k _ (foldl_stackStep_segments _ [] (by simp)
        (splitSlash_slashfree p))

/-! ## The root is normalised: `Clean(root)` may stand for `root` -/

theorem unrooted_push_one (k : Nat) (stack : List (List Char)) (e : List Char)
    (hs : ∀ s ∈ stack, Segment s) (he : Segment e) :
    elemStep false (unrootedState k stack) e = unrootedState k (stack ++ [e]) := by
  unfold elemStep
  rw [if_neg (by rintro (h1 | h1); exact he.1 h1; exact he.2.2.1 h1), if_neg he.2.2.2]
  unfold realElem unrootedState
  simp only
  rw [← List.append_assoc, strings_Join_snoc]
  by_cases hnil : List.replicate k ['.', '.'] ++ stack = []
  · rw [hnil]
    simp [strings.Join]
  · have hJ : strings.Join (List.replicate k ['.', '.'] ++ stack) ['/'] ≠ [] := by
      rw [Ne, strings_Join_eq_nil _ _ (dots_append_nonempty k stack hs)]
      exact hnil
    have hlen : (strings.Join (List.replicate k ['.', '.'] ++ stack) ['/']).length ≠ 0 := by
      simpa using hJ
    simp [hnil, hlen]

theorem unrooted_push (segs : List (List Char)) (k : Nat) (stack : List (List Char))
    (hs : ∀ s ∈ stack, Segment s) (h : ∀ s ∈ segs, Segment s) :
    segs.foldl (elemStep false) (unrootedState k stack) = unrootedState k (stack ++ segs) := by
  induction segs generalizing stack with
  | nil => simp
  | cons e segs ih =>
    have he : Segment e := h e (List.mem_cons_self _ _)
    rw [List.foldl_cons, unrooted_push_one k stack e hs he, ih]
    · simp
    · intro s hmem
      rcases List.mem_append.mp hmem with h1 | h1
      · exact hs s h1
      · have : s = e := by simpa using h1
        rw [this]; exact he
    · exact fun s hmem => h s (List.mem_cons_of_mem _ hmem)

theorem unrooted_dots (k j : Nat) :
    (List.replicate k ['.', '.']).foldl (elemStep false) (unrootedState j []) =
      unrootedState (j + k) [] := by
  induction k generalizing j with
  | zero => rfl
  | succ k ih =>
    rw [List.replicate_succ, List.foldl_cons, elemStep_dotdot, unrooted_dotdot_nil, ih]
    congr 1
    omega

theorem unrootedState_zero : unrootedState 0 [] = ⟨[], 0⟩ := by
  simp [unrootedState, strings.Join]

theorem rootedState_nil : rootedState [] = ⟨['/'], 1⟩ := by
  simp [rootedState, strings.Join]

theorem dots_append_slashfree (k : Nat) (stack : List (List Char))
    (hs : ∀ s ∈ stack, Segment s) :
    ∀ c ∈ List.replicate k ['.', '.'] ++ stack, '/' ∉ c := by
  intro c hmem
  rcases List.mem_append.mp hmem with h | h
  · rw [List.eq_of_mem_replicate h]
    decide
  · exact (hs c h).2.1

theorem strings_Join_head (l : List (List Char)) (sep : List Char)
    (h : ∀ c ∈ l, c ≠ [] ∧ '/' ∉ c) : (strings.Join l sep).head? ≠ some '/' := by
  cases l with
  | nil => simp [strings.Join]
  | cons a rest =>
    obtain ⟨ha1, ha2⟩ := h a (List.mem_cons_self _ _)
    obtain ⟨x, t, rfl⟩ := List.exists_cons_of_ne_nil ha1
    have hx : x ≠ '/' := fun hx => ha2 (by simp [hx])
    cases rest with
    | nil => simpa [strings.Join] using hx
    | cons b rest =>
      rw [strings_Join_cons_cons]
      simpa using hx

/-- The output of an unrooted `Clean` is not empty and does not start with a slash. -/
theorem cleanFinish_unrooted_shape (k : Nat) (stack : List (List Char))
    (hs : ∀ s ∈ stack, Segment s) :
    cleanFinish (unrootedState k stack) ≠ [] ∧
      (cleanFinish (unrootedState k stack)).head? ≠ some '/' := by
  unfold cleanFinish unrootedState
  simp only
  by_cases h0 : (strings.Join (List.replicate k ['.', '.'] ++ stack) ['/']).length = 0
  · rw [if_pos h0]
    exact ⟨by simp, by decide⟩
  · rw [if_neg h0]
    refine ⟨fun h => h0 (by rw [h]; rfl), ?_⟩
    exact strings_Join_head _ _ (fun c hc =>
      ⟨dots_append_nonempty k stack hs c hc, dots_append_slashfree k stack hs c hc⟩)

/-- Running the unrooted loop over the output of an unrooted `Clean` reproduces
the state that output came from. -/
theorem unrooted_state_of_finish (k : Nat) (stack : List (List Char))
    (hs : ∀ s ∈ stack, Segment s) :
    (splitSlash (cleanFinish (unrootedState k stack))).foldl (elemStep false) ⟨[], 0⟩ =
      unrootedState k stack := by
  by_cases hnil : List.replicate k ['.', '.'] ++ stack = []
  · have hst : stack = [] := (List.append_eq_nil.mp hnil).2
    have hk : k = 0 := by
      have := (List.append_eq_nil.mp hnil).1
      cases k with
      | zero => rfl
      | succ k => simp [List.replicate_succ] at this
    subst hst
    subst hk
    decide
  · have hJ : strings.Join (List.replicate k ['.', '.'] ++ stack) ['/'] ≠ [] := by
      rw [Ne, strings_Join_eq_nil _ _ (dots_append_nonempty k stack hs)]
      exact hnil
    have hlen : (strings.Join (List.replicate k ['.', '.'] ++ stack) ['/']).length ≠ 0 := by
      simpa using hJ
    have hfin : cleanFinish (unrootedState k stack) =
        strings.Join (List.replicate k ['.', '.'] ++ stack) ['/'] := by
      unfold cleanFinish unrootedState
      simp only
      rw [if_neg hlen]
    rw [hfin, splitSlash_Join _ hnil (dots_append_slashfree k stack hs), List.foldl_append,
      ← unrootedState_zero, unrooted_dots, unrooted_push _ _ _ (by simp) hs]
    simp

theorem path_Clean_append_rooted (q X : List Char) :
    path.Clean (('/' :: q) ++ '/' :: X) =
      cleanFinish ((splitSlash X).foldl (elemStep true) (rootedState (cleanStack q))) := by
  rw [List.cons_append, path_Clean_rooted, splitSlash_append_slash, List.foldl_append,
    ← rootedState_nil, rooted_foldl _ [] (by simp) (splitSlash_slashfree q)]
  rfl

theorem path_Clean_append_unrooted (r X : List Char) (hr : r ≠ [])
    (hu : r.head? ≠ some '/') :
    path.Clean (r ++ '/' :: X) =
      cleanFinish ((splitSlash X).foldl (elemStep false)
        ((splitSlash r).foldl (elemStep false) ⟨[], 0⟩)) := by
  have hne : r ++ '/' :: X ≠ [] := by simp
  have hhead : (r ++ '/' :: X).head? ≠ some '/' := by
    obtain ⟨c, t, rfl⟩ := List.exists_cons_of_ne_nil hr
    simpa using hu
  unfold path.Clean
  rw [if_neg hne, cleanBody_unrooted _ hhead, splitSlash_append_slash, List.foldl_append]

theorem path_Clean_ne_nil (p : List Char) : path.Clean p ≠ [] := by
  by_cases hp : p = []
  · subst hp
    decide
  · by_cases hroot : p.head? = some '/'
    · obtain ⟨c, q, rfl⟩ := List.exists_cons_of_ne_nil hp
      have hc : c = '/' := by simpa using hroot
      subst hc
      rw [path_Clean_slash]
      simp
    · unfold path.Clean
      rw [if_neg hp, cleanBody_unrooted p hroot, ← unrootedState_zero]
      obtain ⟨k, hk⟩ := unrooted_foldl (splitSlash p) 0 [] (by simp) (splitSlash_slashfree p)
      rw [hk]
      exact (cleanFinish_unrooted_shape k _ (foldl_stackStep_segments _ [] (by simp)
        (splitSlash_slashfree p))).1

/-- A non-empty path and its cleaned form behave alike as the first element of a
join: `Clean(Clean(r) + "/" + X) = Clean(r + "/" + X)`. -/
theorem path_Clean_append_Clean (r X : List Char) (hr : r ≠ []) :
    path.Clean (path.Clean r ++ '/' :: X) = path.Clean (r ++ '/' :: X) := by
  by_cases hroot : r.head? = some '/'
  · obtain ⟨c, q, rfl⟩ := List.exists_cons_of_ne_nil hr
    have hc : c = '/' := by simpa using hroot
    subst hc
    rw [path_Clean_slash, path_Clean_append_rooted, path_Clean_append_rooted,
      cleanStack_Join _ (cleanStack_segments q)]
  · have hfold : path.Clean r =
        cleanFinish ((splitSlash r).foldl (elemStep false) ⟨[], 0⟩) := by
      unfold path.Clean
      rw [if_neg hr, cleanBody_unrooted r hroot]
    obtain ⟨k, hk⟩ := unrooted_foldl (splitSlash r) 0 [] (by simp) (splitSlash_slashfree r)
    rw [unrootedState_zero] at hk
    have hseg := foldl_stackStep_segments (splitSlash r) [] (by simp) (splitSlash_slashfree r)
    have hshape := cleanFinish_unrooted_shape k _ hseg
    rw [path_Clean_append_unrooted r X hr hroot, hfold, hk,
      path_Clean_append_unrooted _ X hshape.1 hshape.2, unrooted_state_of_finish k _ hseg]

/-- `Clean` is idempotent. -/
theorem path_Clean_idem (r : List Char) : path.Clean (path.Clean r) = path.Clean r := by
  by_cases hr : r = []
  · subst hr
    decide
  · by_cases hroot : r.head? = some '/'
    · obtain ⟨c, q, rfl⟩ := List.exists_cons_of_ne_nil hr
      have hc : c = '/' := by simpa using hroot
      subst hc
      rw [path_Clean_slash, path_Clean_slash, cleanStack_Join _ (cleanStack_segments q)]
    · have hfold : path.Clean r =
          cleanFinish ((splitSlash r).foldl (elemStep false) ⟨[], 0⟩) := by
        unfold path.Clean
        rw [if_neg hr, cleanBody_unrooted r hroot]
      obtain ⟨k, hk⟩ := unrooted_foldl (splitSlash r) 0 [] (by simp) (splitSlash_slashfree r)
      rw [unrootedState_zero] at hk
      have hseg := foldl_stackStep_segments (splitSlash r) [] (by simp) (splitSlash_slashfree r)
      have hshape := cleanFinish_unrooted_shape k _ hseg
      rw [hfold, hk]
      unfold path.Clean
      rw [if_neg hshape.1, cleanBody_unrooted _ hshape.2, unrooted_state_of_finish k _ hseg]

/-- `Resolve` below a non-empty root is `Resolve` below the cleaned root. -/
theorem Resolve_Clean_root (root name : List Char) (hr : root ≠ []) :
    (FileSystem root).Resolve name = (FileSystem (path.Clean root)).Resolve name := by
  rw [Resolve_eq, Resolve_eq]
  simp only [FileSystem, if_neg hr, if_neg (path_Clean_ne_nil root)]
  exact (path_Clean_append_Clean root _ hr).symm

/-- `Resolve` below the root `"."`: the surviving segments joined by slashes,
or `"."` when there are none. -/
theorem Resolve_dot (name : List Char) :
    (FileSystem ['.']).Resolve name =
      if cleanStack name = [] then ['.'] else strings.Join (cleanStack name) ['/'] := by
  rw [Resolve_eq]
  simp only [FileSystem]
  rw [if_neg (by simp), path_Clean_append_unrooted ['.'] _ (by simp) (by decide)]
  have h0 : (splitSlash ['.']).foldl (elemStep false) ⟨[], 0⟩ = unrootedState 0 [] := by
    decide
  have hseg := cleanStack_segments name
  rw [h0, splitSlash_cons_slash, List.foldl_cons, elemStep_nil]
  by_cases hs : cleanStack name = []
  · rw [hs]
    decide
  · rw [if_neg hs, splitSlash_Join _ hs (fun c hc => (hseg c hc).2.1),
      unrooted_push _ 0 [] (by simp) hseg]
    have hJ : strings.Join (cleanStack name) ['/'] ≠ [] := by
      rw [Ne, strings_Join_eq_nil _ _ (fun s h => (hseg s h).1)]
      exact hs
    unfold cleanFinish unrootedState
    simp only [List.replicate_zero, List.nil_append]
    rw [if_neg (by simpa using hJ)]

/-! ## `path.Join` and the segment stack -/

theorem foldl_splitSlash_Join (elems : List (List Char)) (hne : elems ≠ [])
    (stack : List (List Char)) :
    (splitSlash (strings.Join elems ['/'])).foldl stackStep stack = stackOfElems elems stack := by
  induction elems generalizing stack with
  | nil => exact absurd rfl hne
  | cons a elems ih =>
    cases elems with
    | nil => simp [strings.Join, stackOfElems]
    | cons b elems =>
      rw [strings_Join_cons_cons, List.append_assoc, List.singleton_append,
        splitSlash_append_slash, List.foldl_append, ih (by simp)]
      simp [stackOfElems]

theorem cleanStack_strings_Join (elems : List (List Char)) :
    cleanStack (strings.Join elems ['/']) = stackOfElems elems [] := by
  by_cases hne : elems = []
  · subst hne
    simp [strings.Join, cleanStack_nil, stackOfElems]
  · exact foldl_splitSlash_Join elems hne []

theorem stackOfElems_filter (elems : List (List Char)) (stack : List (List Char)) :
    stackOfElems (elems.filter (fun e => decide (e ≠ []))) stack = stackOfElems elems stack := by
  induction elems generalizing stack with
  | nil => rfl
  | cons e elems ih =>
    by_cases he : e = []
    · subst he
      have : stackOfElems ([] :: elems) stack = stackOfElems elems stack := by
        simp [stackOfElems, splitSlash, stackStep]
      rw [this, ← ih]
      simp
    · have hf : (e :: elems).filter (fun e => decide (e ≠ [])) =
          e :: elems.filter (fun e => decide (e ≠ [])) := by
        simp [List.filter_cons, he]
      rw [hf]
      show stackOfElems (elems.filter (fun e => decide (e ≠ []))) _ = stackOfElems elems _
      exact ih _

theorem stackOfElems_cons (e : List Char) (elems stack : List (List Char)) :
    stackOfElems (e :: elems) stack =
      stackOfElems elems ((splitSlash e).foldl stackStep stack) := rfl

theorem stackOfElems_of_size_zero (elems : List (List Char)) (n : Nat)
    (stack : List (List Char))
    (h : elems.foldl (fun size e => size + e.length) n = 0) :
    stackOfElems elems stack = stack := by
  induction elems generalizing n with
  | nil => rfl
  | cons e elems ih =>
    rw [List.foldl_cons] at h
    have hmono : ∀ (l : List (List Char)) (m : Nat),
        m ≤ l.foldl (fun size e => size + e.length) m := by
      intro l
      induction l with
      | nil => intro m; exact le_refl _
      | cons x l ihl =>
        intro m
        rw [List.foldl_cons]
        exact le_trans (Nat.le_add_right _ _) (ihl _)
    have hle := hmono elems (n + e.length)
    have he : e = [] := List.eq_nil_of_length_eq_zero (by omega)
    subst he
    rw [stackOfElems_cons]
    simp only [splitSlash, List.foldl_cons, List.foldl_nil, stackStep, true_or, if_true]
    exact ih _ h

/-- The buffer loop of `path.Join` joins the elements seen so far; the stack of
the buffer follows the elements one by one. -/
theorem cleanStack_Join_buf (elems : List (List Char)) (buf : List Char) :
    cleanStack (elems.foldl (fun (buf : List Char) e =>
      if 0 < buf.length ∨ e ≠ [] then
        (if 0 < buf.length then buf ++ ['/'] else buf) ++ e
      else buf) buf) = stackOfElems elems (cleanStack buf) := by
  induction elems generalizing buf with
  | nil => rfl
  | cons e elems ih =>
    rw [List.foldl_cons, ih, stackOfElems_cons]
    congr 1
    by_cases hb : buf = []
    · subst hb
      by_cases he : e = []
      · subst he
        decide
      · have h0 : cleanStack [] = [] := cleanStack_nil
        simp only [List.length_nil, lt_irrefl, false_or, ne_eq, he, not_false_eq_true, if_true,
          if_false, List.nil_append, h0]
        rfl
    · have hlen : 0 < buf.length := List.length_pos.mpr hb
      simp only [hlen, true_or, if_true, List.append_assoc, List.singleton_append]
      exact cleanStack_append_slash buf e

theorem cleanStack_path_Join (elems : List (List Char)) :
    cleanStack (path.Join elems) = stackOfElems elems [] := by
  unfold path.Join
  simp only
  by_cases hsize : elems.foldl (fun size e => size + e.length) 0 = 0
  · rw [if_pos hsize, cleanStack_nil, stackOfElems_of_size_zero elems 0 [] hsize]
  · rw [if_neg hsize, cleanStack_Clean, cleanStack_Join_buf, cleanStack_nil]

/-! ## Supporting facts for the resolution theorems -/

theorem AbsClean_resolve (root name : List Char) (h : AbsClean root) (hne : root ≠ ['/']) :
    (FileSystem root).Resolve name = root ++ slashCat (cleanStack name) := by
  have hdot : root ≠ ['.'] := by
    intro hd
    rw [hd] at h
    exact absurd h.1 (by decide)
  exact Resolve_cleaned root name h.2 hne hdot

theorem Resolve_of_Clean_eq (fs : fileSystem) (a b : List Char)
    (h : path.Clean ('/' :: a) = path.Clean ('/' :: b)) : fs.Resolve a = fs.Resolve b := by
  unfold fileSystem.Resolve
  simp only [ToSlash_eq, List.singleton_append, h]

theorem shape_of_cleaned (root name : List Char)
    (h : (FileSystem root).Resolve name = root ++ slashCat (cleanStack name)) :
    (FileSystem root).Resolve name = root ∨
      ∃ comps : List (List Char), comps ≠ [] ∧ (∀ c ∈ comps, Segment c) ∧
        (FileSystem root).Resolve name = root ++ '/' :: strings.Join comps ['/'] := by
  by_cases hs : cleanStack name = []
  · left
    rw [h, hs]
    simp [slashCat]
  · right
    exact ⟨cleanStack name, hs, cleanStack_segments name, by rw [h, slashCat_eq_Join _ hs]⟩

theorem Resolve_empty_name (root : List Char) (hroot : AbsClean root) :
    (FileSystem root).Resolve [] = root := by
  by_cases hne : root = ['/']
  · subst hne
    decide
  · have h0 : cleanStack [] = [] := by decide
    simp [AbsClean_resolve root _ hroot hne, h0, slashCat]

/-! ## The claims -/

/-- C1 (confinement). For every root that is an absolute path in cleaned form
(no trailing separator, no `.`, `..` or empty component) and every name,
`Resolve(name)` is an absolute path that is exactly the root, or the root followed
by one separator and a non-empty sequence of ordinary segments (non-empty, none
of them `.` or `..`) separated by single slashes. -/
theorem resolve_confined (root name : List Char) (hroot : SegmentedAbs root) :
    ((FileSystem root).Resolve name).head? = some '/' ∧
    ((FileSystem root).Resolve name = root ∨
      ∃ comps : List (List Char), comps ≠ [] ∧ (∀ c ∈ comps, Segment c) ∧
        (FileSystem root).Resolve name = root ++ '/' :: strings.Join comps ['/']) := by
  obtain ⟨hc, h1, h2⟩ := SegmentedAbs_clean root hroot
  have hres := Resolve_cleaned root name hc h1 h2
  refine ⟨?_, shape_of_cleaned root name hres⟩
  rw [hres]
  obtain ⟨c, q, rfl⟩ := List.exists_cons_of_ne_nil
    (fun hn : root = [] => by rw [hn] at hroot; simp [SegmentedAbs] at hroot)
  simpa using hroot.1

/-- Witness for C1: the root `/tmp/vfs` and the name `../../etc/passwd`. -/
theorem resolve_confined_witness :
    SegmentedAbs "/tmp/vfs".toList ∧
    ((FileSystem "/tmp/vfs".toList).Resolve "../../etc/passwd".toList).head? = some '/' ∧
    ((FileSystem "/tmp/vfs".toList).Resolve "../../etc/passwd".toList = "/tmp/vfs".toList ∨
      ∃ comps : List (List Char), comps ≠ [] ∧ (∀ c ∈ comps, Segment c) ∧
        (FileSystem "/tmp/vfs".toList).Resolve "../../etc/passwd".toList =
          "/tmp/vfs".toList ++ '/' :: strings.Join comps ['/']) :=
  ⟨by decide, resolve_confined "/tmp/vfs".toList "../../etc/passwd".toList (by decide)⟩

/-- C2, counterexample. `filepath.Join` cleans the joined path, so the root is
not used character for character: below the root `/srv/../etc` the name `passwd`
resolves to `/etc/passwd`, which does not start with the root; the root `/tmp/`
resolves the empty name to `/tmp`; and the cleaned roots `/` and `.` are not
followed by a separator. -/
theorem root_not_verbatim_counterexample :
    (FileSystem "/srv/../etc".toList).Resolve "passwd".toList = "/etc/passwd".toList ∧
    ¬ ("/srv/../etc".toList <+: (FileSystem "/srv/../etc".toList).Resolve "passwd".toList) ∧
    (FileSystem "/tmp/".toList).Resolve [] = "/tmp".toList ∧
    (FileSystem "/".toList).Resolve "x".toList = "/x".toList ∧
    (FileSystem ".".toList).Resolve "x".toList = "x".toList := by
  decide

/-- C2, amended. The constructor stores the root unvalidated.  For every
non-empty root, absolute or relative, and every name, `Resolve(name)` is what it
is below the root `filepath.Clean(root)`: `filepath.Join` normalises the root and
nothing else.  With `c = filepath.Clean(root)` the result is `c` character for
character, or `c` followed by exactly one separator and ordinary segments;
when `c` is `/` it is the cleaned forced-absolute name itself, and when `c` is
`.` it is `.` or the segments alone. -/
theorem resolve_below_any_root (root name : List Char) (hroot : root ≠ []) :
    (FileSystem root).root = root ∧
    (FileSystem root).Resolve name = (FileSystem (filepath.Clean root)).Resolve name ∧
    filepath.Clean (filepath.Clean root) = filepath.Clean root ∧
    (filepath.Clean root ≠ ['/'] → filepath.Clean root ≠ ['.'] →
      ((FileSystem root).Resolve name = filepath.Clean root ∨
        ∃ comps : List (List Char), comps ≠ [] ∧ (∀ c ∈ comps, Segment c) ∧
          (FileSystem root).Resolve name =
            filepath.Clean root ++ '/' :: strings.Join comps ['/'])) ∧
    (filepath.Clean root = ['/'] →
      (FileSystem root).Resolve name = path.Clean ('/' :: name)) ∧
    (filepath.Clean root = ['.'] →
      ((FileSystem root).Resolve name = ['.'] ∨
        ∃ comps : List (List Char), comps ≠ [] ∧ (∀ c ∈ comps, Segment c) ∧
          (FileSystem root).Resolve name = strings.Join comps ['/'])) := by
  have hnorm := Resolve_Clean_root root name hroot
  rw [filepath_Clean_eq]
  refine ⟨rfl, hnorm, ?_, ?_, ?_, ?_⟩
  · rw [filepath_Clean_eq]
    exact path_Clean_idem root
  · intro h1 h2
    have hres := Resolve_cleaned (path.Clean root) name (path_Clean_idem root) h1 h2
    rw [← hnorm] at hres
    by_cases hs : cleanStack name = []
    · left
      rw [hres, hs]
      simp [slashCat]
    · right
      exact ⟨cleanStack name, hs, cleanStack_segments name,
        by rw [hres, slashCat_eq_Join _ hs]⟩
  · intro h1
    rw [hnorm, h1]
    exact Resolve_slash name
  · intro h1
    rw [hnorm, h1, Resolve_dot]
    by_cases hs : cleanStack name = []
    · left
      rw [if_pos hs]
    · right
      exact ⟨cleanStack name, hs, cleanStack_segments name, by rw [if_neg hs]⟩

/-- Witness for C2 (amended): the root `/var/../srv/www/`, which is not in cleaned
form, and the name `a/../b`. -/
theorem resolve_below_any_root_witness :
    "/var/../srv/www/".toList ≠ [] ∧
    filepath.Clean "/var/../srv/www/".toList = "/srv/www".toList ∧
    (FileSystem "/var/../srv/www/".toList).Resolve "a/../b".toList =
      (FileSystem (filepath.Clean "/var/../srv/www/".toList)).Resolve "a/../b".toList ∧
    ((FileSystem "/var/../srv/www/".toList).Resolve "a/../b".toList =
        filepath.Clean "/var/../srv/www/".toList ∨
      ∃ comps : List (List Char), comps ≠ [] ∧ (∀ c ∈ comps, Segment c) ∧
        (FileSystem "/var/../srv/www/".toList).Resolve "a/../b".toList =
          filepath.Clean "/var/../srv/www/".toList ++ '/' :: strings.Join comps ['/']) :=
  ⟨by decide, by decide,
    (resolve_below_any_root "/var/../srv/www/".toList "a/../b".toList (by decide)).2.1,
    (resolve_below_any_root "/var/../srv/www/".toList "a/../b".toList (by decide)).2.2.2.1
      (by decide) (by decide)⟩

/-- C3, counterexample. The root `/` is absolute and in cleaned form, yet
`Resolve("../../../../../../etc/password")` is `/etc/password`, not
`root + "/etc/password"` (which would be `//etc/password`). -/
theorem traversal_slash_root_counterexample :
    AbsClean ['/'] ∧
    (FileSystem ['/']).Resolve "../../../../../../etc/password".toList = "/etc/password".toList ∧
    (FileSystem ['/']).Resolve "../../../../../../etc/password".toList ≠
      ['/'] ++ "/etc/password".toList := by
  decide

/-- C3, amended (deep traversal absorption). For every root, every `n` and every
`p`, `Resolve` of `n` copies of `../` followed by `p` equals `Resolve("/" + p)`
equals `Resolve(p)`; and for a cleaned absolute root other than `/`,
`Resolve("../../../../../../etc/password") = root + "/etc/password"`. -/
theorem traversal_absorbed (root : List Char) (n : Nat) (p : List Char) :
    (FileSystem root).Resolve (strings.Repeat "../".toList n ++ p) =
      (FileSystem root).Resolve ('/' :: p) ∧
    (FileSystem root).Resolve ('/' :: p) = (FileSystem root).Resolve p ∧
    (AbsClean root → root ≠ ['/'] →
      (FileSystem root).Resolve "../../../../../../etc/password".toList =
        root ++ "/etc/password".toList) := by
  refine ⟨?_, ?_, ?_⟩
  · apply Resolve_congr
    rw [cleanStack_cons_slash]
    exact cleanStack_dotdots n p
  · exact Resolve_congr _ _ _ (cleanStack_cons_slash p)
  · intro h hne
    rw [AbsClean_resolve root _ h hne]
    have : cleanStack "../../../../../../etc/password".toList =
        ["etc".toList, "password".toList] := by decide
    rw [this]
    rfl

/-- Witness for C3 (amended): the root `/tmp/vfs`, three `../` and `etc/x`. -/
theorem traversal_absorbed_witness :
    AbsClean "/tmp/vfs".toList ∧ "/tmp/vfs".toList ≠ ['/'] ∧
    (FileSystem "/tmp/vfs".toList).Resolve (strings.Repeat "../".toList 3 ++ "etc/x".toList) =
      (FileSystem "/tmp/vfs".toList).Resolve ('/' :: "etc/x".toList) ∧
    (FileSystem "/tmp/vfs".toList).Resolve "../../../../../../etc/password".toList =
      "/tmp/vfs".toList ++ "/etc/password".toList :=
  ⟨by decide, by decide, (traversal_absorbed "/tmp/vfs".toList 3 "etc/x".toList).1,
    (traversal_absorbed "/tmp/vfs".toList 3 "etc/x".toList).2.2 (by decide) (by decide)⟩

/-- C4 (neutral elements collapse to root). For every root that is an absolute
path in cleaned form, `Resolve("")`, `Resolve(".")`, `Resolve("..")` and
`Resolve("/")` are all equal to the root itself. -/
theorem neutral_names_resolve_to_root (root : List Char) (hroot : AbsClean root) :
    (FileSystem root).Resolve [] = root ∧
    (FileSystem root).Resolve ['.'] = root ∧
    (FileSystem root).Resolve ['.', '.'] = root ∧
    (FileSystem root).Resolve ['/'] = root := by
  by_cases hne : root = ['/']
  · subst hne
    decide
  · have h0 : cleanStack [] = [] := by decide
    have h1 : cleanStack ['.'] = [] := by decide
    have h2 : cleanStack ['.', '.'] = [] := by decide
    have h3 : cleanStack ['/'] = [] := by decide
    simp [AbsClean_resolve root _ hroot hne, h0, h1, h2, h3, slashCat]

/-- Witness for C4: the root `/tmp/vfs`. -/
theorem neutral_names_resolve_to_root_witness :
    AbsClean "/tmp/vfs".toList ∧
    (FileSystem "/tmp/vfs".toList).Resolve [] = "/tmp/vfs".toList ∧
    (FileSystem "/tmp/vfs".toList).Resolve ['.'] = "/tmp/vfs".toList ∧
    (FileSystem "/tmp/vfs".toList).Resolve ['.', '.'] = "/tmp/vfs".toList ∧
    (FileSystem "/tmp/vfs".toList).Resolve ['/'] = "/tmp/vfs".toList :=
  ⟨by decide, neutral_names_resolve_to_root "/tmp/vfs".toList (by decide)⟩

/-- C5 (Join equivalence). For every root and every sequence of path elements,
`Join(elems...)` equals `Resolve(s)` where `s` is the non-empty elements joined by
single slashes; inserting an empty element anywhere does not change the result;
and `Join("..", "..", "..", "etc", "password") = Resolve("etc/password")`. -/
theorem join_equivalence (root : List Char) (elems : List (List Char)) :
    (FileSystem root).Join elems =
      (FileSystem root).Resolve
        (strings.Join (elems.filter (fun e => decide (e ≠ []))) ['/']) ∧
    (∀ front back : List (List Char),
      (FileSystem root).Join (front ++ [] :: back) = (FileSystem root).Join (front ++ back)) ∧
    (FileSystem root).Join
        ["..".toList, "..".toList, "..".toList, "etc".toList, "password".toList] =
      (FileSystem root).Resolve "etc/password".toList := by
  have key : ∀ l : List (List Char), (FileSystem root).Join l =
      (FileSystem root).Resolve (strings.Join (l.filter (fun e => decide (e ≠ []))) ['/']) := by
    intro l
    unfold fileSystem.Join
    apply Resolve_congr
    rw [cleanStack_path_Join, cleanStack_strings_Join, stackOfElems_filter]
  refine ⟨key elems, ?_, ?_⟩
  · intro front back
    rw [key, key]
    simp [List.filter_append, List.filter_cons]
  · unfold fileSystem.Join
    apply Resolve_congr
    decide

/-- C6 (redundant separators collapse). For every root, all `s` and `t` and every
`k ≥ 1`, `Resolve(s + k slashes + t) = Resolve(s + "/" + t)`; any number of
leading slashes is equivalent to none; in particular
`Resolve("//file.gif") = Resolve("///file.gif") = Resolve("file.gif")`. -/
theorem separators_collapse (root s t : List Char) (k : Nat) :
    (1 ≤ k → (FileSystem root).Resolve (s ++ List.replicate k '/' ++ t) =
      (FileSystem root).Resolve (s ++ '/' :: t)) ∧
    (FileSystem root).Resolve (List.replicate k '/' ++ t) = (FileSystem root).Resolve t ∧
    (FileSystem root).Resolve "//file.gif".toList =
      (FileSystem root).Resolve "///file.gif".toList ∧
    (FileSystem root).Resolve "///file.gif".toList =
      (FileSystem root).Resolve "file.gif".toList := by
  refine ⟨?_, ?_, ?_, ?_⟩
  · intro hk
    obtain ⟨j, rfl⟩ : ∃ j, k = j + 1 := ⟨k - 1, by omega⟩
    exact Resolve_congr _ _ _ (cleanStack_inner_slashes s t j)
  · exact Resolve_congr _ _ _ (cleanStack_leading_slashes k t)
  · exact Resolve_congr _ _ _ (by decide)
  · exact Resolve_congr _ _ _ (by decide)

/-- Witness for C6: three slashes between `a` and `b`. -/
theorem separators_collapse_witness :
    1 ≤ 3 ∧
    (FileSystem "/tmp/vfs".toList).Resolve ("a".toList ++ List.replicate 3 '/' ++ "b".toList) =
      (FileSystem "/tmp/vfs".toList).Resolve ("a".toList ++ '/' :: "b".toList) :=
  ⟨by decide, (separators_collapse "/tmp/vfs".toList "a".toList "b".toList 3).1 (by decide)⟩

/-- C7 (trailing separator or `.`). For every root and every name,
`Resolve(name + "/") = Resolve(name)` and `Resolve(name + "/.") = Resolve(name)`. -/
theorem trailing_separator_ignored (root name : List Char) :
    (FileSystem root).Resolve (name ++ ['/']) = (FileSystem root).Resolve name ∧
    (FileSystem root).Resolve (name ++ ['/', '.']) = (FileSystem root).Resolve name :=
  ⟨Resolve_congr _ _ _ (cleanStack_trailing_slash name),
    Resolve_congr _ _ _ (cleanStack_trailing_dot name)⟩

/-- C8 (ordinary segments are kept verbatim, a backslash is an ordinary
character). With `/` as the native separator, for every cleaned absolute root
other than `/` and every non-empty list of ordinary segments,
`Resolve(seg1/.../segk) = root + "/" + seg1/.../segk`; in particular
`Resolve("files\\file.gif") = root + "/files\\file.gif"` and
`Resolve("\\\\host\\share\\..\\test") = root + "/\\\\host\\share\\..\\test"`. -/
theorem segments_kept_verbatim (root : List Char) (segs : List (List Char))
    (hroot : AbsClean root) (hne : root ≠ ['/']) (hsegs : segs ≠ [])
    (h : ∀ s ∈ segs, Segment s) :
    filepath.Separator = '/' ∧
    (FileSystem root).Resolve (strings.Join segs ['/']) =
      root ++ ['/'] ++ strings.Join segs ['/'] ∧
    (FileSystem root).Resolve "files\\file.gif".toList =
      root ++ ['/'] ++ "files\\file.gif".toList ∧
    (FileSystem root).Resolve "\\\\host\\share\\..\\test".toList =
      root ++ ['/'] ++ "\\\\host\\share\\..\\test".toList := by
  have gen : ∀ l : List (List Char), l ≠ [] → (∀ s ∈ l, Segment s) →
      (FileSystem root).Resolve (strings.Join l ['/']) =
        root ++ ['/'] ++ strings.Join l ['/'] := by
    intro l hl hs
    rw [AbsClean_resolve root _ hroot hne, cleanStack_Join l hs, slashCat_eq_Join l hl]
    simp
  refine ⟨rfl, gen segs hsegs h, ?_, ?_⟩
  · exact gen ["files\\file.gif".toList] (by simp) (by decide)
  · exact gen ["\\\\host\\share\\..\\test".toList] (by simp) (by decide)

/-- Witness for C8: the root `/tmp/vfs` and the segments `a\..\b`, `c.d`. -/
theorem segments_kept_verbatim_witness :
    AbsClean "/tmp/vfs".toList ∧
    (FileSystem "/tmp/vfs".toList).Resolve
        (strings.Join ["a\\..\\b".toList, "c.d".toList] ['/']) =
      "/tmp/vfs".toList ++ ['/'] ++ strings.Join ["a\\..\\b".toList, "c.d".toList] ['/'] :=
  ⟨by decide, (segments_kept_verbatim "/tmp/vfs".toList ["a\\..\\b".toList, "c.d".toList]
    (by decide) (by decide) (by decide) (by decide)).2.1⟩

/-- C9 (every file operation is the host operation on the resolved path). For
every host, every name, flag and mode, `Open`, `OpenFile`, `Create`, `Stat`,
`Mkdir`, `MkdirAll` and `Remove` make exactly one host call, on `Resolve(name)`
with flags and mode unchanged, and return what that call returns: the host's
value with no error when it succeeds, the host's error when it fails; on
failure `Open` and `Create` return the nil `File` together with the error,
while `OpenFile` returns the host's nil `*os.File` converted to a `File`.  A
name with the same `Resolve` result gives the same outcome; `Stat` of `""`,
`"."`, `".."` and `"/"` coincide, and for a cleaned absolute root they are the
host's `Stat` of the root itself. -/
theorem operations_delegate {Handle Info Err : Type} (os : HostOS Handle Info Err)
    (fs : fileSystem) (name : List Char) (flag : Int) (perm : Nat) :
    ((fs.Open os name).1 = [HostCall.Open (fs.Resolve name)] ∧
      (fs.OpenFile os name flag perm).1 = [HostCall.OpenFile (fs.Resolve name) flag perm] ∧
      (fs.Create os name).1 = [HostCall.Create (fs.Resolve name)] ∧
      (fs.Stat os name).1 = [HostCall.Stat (fs.Resolve name)] ∧
      (fs.Mkdir os name perm).1 = [HostCall.Mkdir (fs.Resolve name) perm] ∧
      (fs.MkdirAll os name perm).1 = [HostCall.MkdirAll (fs.Resolve name) perm] ∧
      (fs.Remove os name).1 = [HostCall.Remove (fs.Resolve name)]) ∧
    ((∀ h, os.Open (fs.Resolve name) = Except.ok h →
        (fs.Open os name).2 = (File.ofOSFile (some h), none)) ∧
      (∀ h, os.OpenFile (fs.Resolve name) flag perm = Except.ok h →
        (fs.OpenFile os name flag perm).2 = (File.ofOSFile (some h), none)) ∧
      (∀ h, os.Create (fs.Resolve name) = Except.ok h →
        (fs.Create os name).2 = (File.ofOSFile (some h), none)) ∧
      (∀ i, os.Stat (fs.Resolve name) = Except.ok i →
        (fs.Stat os name).2 = (some i, none)) ∧
      (∀ u, os.Mkdir (fs.Resolve name) perm = Except.ok u →
        (fs.Mkdir os name perm).2 = none) ∧
      (∀ u, os.MkdirAll (fs.Resolve name) perm = Except.ok u →
        (fs.MkdirAll os name perm).2 = none) ∧
      (∀ u, os.Remove (fs.Resolve name) = Except.ok u →
        (fs.Remove os name).2 = none)) ∧
    ((∀ e, os.Open (fs.Resolve name) = Except.error e →
        (fs.Open os name).2 = (File.nil, some e)) ∧
      (∀ e, os.OpenFile (fs.Resolve name) flag perm = Except.error e →
        (fs.OpenFile os name flag perm).2 = (File.ofOSFile none, some e)) ∧
      (∀ e, os.Create (fs.Resolve name) = Except.error e →
        (fs.Create os name).2 = (File.nil, some e)) ∧
      (∀ e, os.Stat (fs.Resolve name) = Except.error e →
        (fs.Stat os name).2 = (none, some e)) ∧
      (∀ e, os.Mkdir (fs.Resolve name) perm = Except.error e →
        (fs.Mkdir os name perm).2 = some e) ∧
      (∀ e, os.MkdirAll (fs.Resolve name) perm = Except.error e →
        (fs.MkdirAll os name perm).2 = some e) ∧
      (∀ e, os.Remove (fs.Resolve name) = Except.error e →
        (fs.Remove os name).2 = some e)) ∧
    (∀ other, fs.Resolve other = fs.Resolve name →
      fs.Open os other = fs.Open os name ∧
      fs.OpenFile os other flag perm = fs.OpenFile os name flag perm ∧
      fs.Create os other = fs.Create os name ∧
      fs.Stat os other = fs.Stat os name ∧
      fs.Mkdir os other perm = fs.Mkdir os name perm ∧
      fs.MkdirAll os other perm = fs.MkdirAll os name perm ∧
      fs.Remove os other = fs.Remove os name) ∧
    (fs.Stat os [] = fs.Stat os ['.'] ∧ fs.Stat os ['.'] = fs.Stat os ['.', '.'] ∧
      fs.Stat os ['.', '.'] = fs.Stat os ['/']) ∧
    (AbsClean fs.root →
      (fs.Stat os []).1 = [HostCall.Stat fs.root] ∧
      (∀ i, os.Stat fs.root = Except.ok i → (fs.Stat os []).2 = (some i, none)) ∧
      (∀ e, os.Stat fs.root = Except.error e → (fs.Stat os []).2 = (none, some e))) := by
  refine ⟨⟨rfl, rfl, rfl, rfl, rfl, rfl, rfl⟩, ⟨?_, ?_, ?_, ?_, ?_, ?_, ?_⟩,
    ⟨?_, ?_, ?_, ?_, ?_, ?_, ?_⟩, ?_, ?_, ?_⟩
  · intro h hh
    simp [fileSystem.Open, hh, osResult]
  · intro h hh
    simp [fileSystem.OpenFile, hh, osResult]
  · intro h hh
    simp [fileSystem.Create, hh, osResult]
  · intro i hi
    simp [fileSystem.Stat, hi, osResult]
  · intro u hu
    simp [fileSystem.Mkdir, hu, osError]
  · intro u hu
    simp [fileSystem.MkdirAll, hu, osError]
  · intro u hu
    simp [fileSystem.Remove, hu, osError]
  · intro e he
    simp [fileSystem.Open, he, osResult]
  · intro e he
    simp [fileSystem.OpenFile, he, osResult]
  · intro e he
    simp [fileSystem.Create, he, osResult]
  · intro e he
    simp [fileSystem.Stat, he, osResult]
  · intro e he
    simp [fileSystem.Mkdir, he, osError]
  · intro e he
    simp [fileSystem.MkdirAll, he, osError]
  · intro e he
    simp [fileSystem.Remove, he, osError]
  · intro other h
    simp only [fileSystem.Open, fileSystem.OpenFile, fileSystem.Create, fileSystem.Stat,
      fileSystem.Mkdir, fileSystem.MkdirAll, fileSystem.Remove, h]
    simp
  · have h1 : fs.Resolve [] = fs.Resolve ['.'] := Resolve_congr fs _ _ (by decide)
    have h2 : fs.Resolve ['.'] = fs.Resolve ['.', '.'] := Resolve_congr fs _ _ (by decide)
    have h3 : fs.Resolve ['.', '.'] = fs.Resolve ['/'] := Resolve_congr fs _ _ (by decide)
    simp only [fileSystem.Stat, h1, h2, h3]
    simp
  · intro hroot
    have h0 : fs.Resolve [] = fs.root := Resolve_empty_name fs.root hroot
    refine ⟨?_, ?_, ?_⟩
    · simp [fileSystem.Stat, h0]
    · intro i hi
      simp [fileSystem.Stat, h0, hi, osResult]
    · intro e he
      simp [fileSystem.Stat, h0, he, osResult]

/-- Witness for C9: on the witness host, below `/tmp/vfs`, opening `../b` fails
with the host's error and the nil `File`, `Mkdir` fails with the host's error,
and `Stat("")` is the host's `Stat` of the root. -/
theorem operations_delegate_witness :
    witnessHost.Open ((FileSystem "/tmp/vfs".toList).Resolve "../b".toList) = Except.error 2 ∧
    ((FileSystem "/tmp/vfs".toList).Open witnessHost "../b".toList).2 = (File.nil, some 2) ∧
    witnessHost.Mkdir ((FileSystem "/tmp/vfs".toList).Resolve "../b".toList) 0 =
      Except.error 17 ∧
    ((FileSystem "/tmp/vfs".toList).Mkdir witnessHost "../b".toList 0).2 = some 17 ∧
    AbsClean (FileSystem "/tmp/vfs".toList).root ∧
    witnessHost.Stat (FileSystem "/tmp/vfs".toList).root = Except.ok 8 ∧
    ((FileSystem "/tmp/vfs".toList).Stat witnessHost []).2 = (some 8, none) :=
  ⟨by rfl,
    (operations_delegate witnessHost (FileSystem "/tmp/vfs".toList) "../b".toList 0 0).2.2.1.1
      2 (by rfl),
    by rfl,
    (operations_delegate witnessHost (FileSystem "/tmp/vfs".toList)
      "../b".toList 0 0).2.2.1.2.2.2.2.1 17 (by rfl),
    by decide, by rfl,
    ((operations_delegate witnessHost (FileSystem "/tmp/vfs".toList)
      "../b".toList 0 0).2.2.2.2.2 (by decide)).2.1 8 (by rfl)⟩

/-- C10 (no aliasing beyond lexical equivalence). For every cleaned absolute
root and all names `a` and `b`, `Resolve(a) = Resolve(b)` if and only if
`path.Clean("/" + a) = path.Clean("/" + b)`, and `Resolve(a) = root` if and only
if `path.Clean("/" + a) = "/"`. -/
theorem resolve_injective (root a b : List Char) (hroot : AbsClean root) :
    ((FileSystem root).Resolve a = (FileSystem root).Resolve b ↔
      path.Clean ('/' :: a) = path.Clean ('/' :: b)) ∧
    ((FileSystem root).Resolve a = root ↔ path.Clean ('/' :: a) = ['/']) := by
  by_cases hne : root = ['/']
  · subst hne
    simp [Resolve_slash]
  · constructor
    · constructor
      · intro h
        rw [AbsClean_resolve root a hroot hne, AbsClean_resolve root b hroot hne] at h
        have hcat : slashCat (cleanStack a) = slashCat (cleanStack b) := List.append_cancel_left h
        rw [path_Clean_slash_cat, path_Clean_slash_cat, hcat]
        have hiff : cleanStack a = [] ↔ cleanStack b = [] := by
          rw [← slashCat_eq_nil, ← slashCat_eq_nil (cleanStack b), hcat]
        by_cases ha : cleanStack a = []
        · rw [if_pos ha, if_pos (hiff.mp ha)]
        · rw [if_neg ha, if_neg (fun hb => ha (hiff.mpr hb))]
      · exact Resolve_of_Clean_eq _ a b
    · rw [AbsClean_resolve root a hroot hne, path_Clean_slash_cat]
      constructor
      · intro h
        have hcat : slashCat (cleanStack a) = [] := by
          have := congrArg List.length h
          simp only [List.length_append] at this
          exact List.eq_nil_of_length_eq_zero (by omega)
        rw [if_pos ((slashCat_eq_nil _).mp hcat)]
      · intro h
        by_cases ha : cleanStack a = []
        · rw [ha]
          simp [slashCat]
        · rw [if_neg ha] at h
          have hseg := cleanStack_segments a
          obtain ⟨c, rest, hcr⟩ := List.exists_cons_of_ne_nil ha
          rw [hcr] at h
          have hc : Segment c := hseg c (by rw [hcr]; simp)
          have hlen := congrArg List.length h
          simp only [slashCat, List.length_cons, List.length_append, List.length_nil] at hlen
          have : c.length = 0 := by omega
          exact absurd (List.eq_nil_of_length_eq_zero this) hc.1

/-- Witness for C10: below `/tmp/vfs` the names `a/../b` and `/b/.` resolve alike. -/
theorem resolve_injective_witness :
    AbsClean "/tmp/vfs".toList ∧
    ((FileSystem "/tmp/vfs".toList).Resolve "a/../b".toList =
        (FileSystem "/tmp/vfs".toList).Resolve "/b/.".toList ↔
      path.Clean ('/' :: "a/../b".toList) = path.Clean ('/' :: "/b/.".toList)) :=
  ⟨by decide, (resolve_injective "/tmp/vfs".toList "a/../b".toList "/b/.".toList (by decide)).1⟩

